import Mathlib

/-!
Verification development for the document-consolidation orchestrator
(`orchestra.py`): a seven-stage pipeline that organises per-entity PDF
folders, extracts pages, creates backup copies, removes redundant files and
produces one deduplicated merged PDF per folder, guarded by a per-folder
merge cache.

The Python source is shallowly embedded: files are records carrying a name,
their byte content (as a string), the list of page contents visible to the
PDF library, and a flag telling whether the PDF library can open them.
Cryptographic digests (md5 over concatenated candidate bytes, sha256 over a
page's XML text) are modelled as collision-free abstractions: the digest of
a string is the string itself.  Clock readings are natural numbers.
All string helpers are re-implemented over `List Char` so that every
definition evaluates inside the kernel (Python's `str.lower`, `str.strip`,
`in`, `str.replace`, `os.path.splitext`, `str.rfind` have exact ASCII-level
counterparts below).
-/

namespace PyOrch

/-- Model of Python `str.lower` (ASCII). -/
def pyLower (s : String) : String := String.mk (s.data.map Char.toLower)

/-- Model of Python `str.upper` (ASCII). -/
def pyUpper (s : String) : String := String.mk (s.data.map Char.toUpper)

/-- Whitespace characters stripped by Python `str.strip`. -/
def isPyWs (c : Char) : Bool :=
  c = ' ' || c = '\t' || c = '\n' || c = '\r' || c = '\x0b' || c = '\x0c'

/-- Model of Python `str.strip`. -/
def pyStrip (s : String) : String :=
  String.mk (((s.data.dropWhile isPyWs).reverse.dropWhile isPyWs).reverse)

/-- `listStarts pat cs` holds when `cs` begins with `pat`. -/
def listStarts : List Char → List Char → Bool
  | [], _ => true
  | _ :: _, [] => false
  | p :: ps, c :: cs => p = c && listStarts ps cs

/-- Model of Python `str.endswith`. -/
def strEndsWith (s suf : String) : Bool :=
  listStarts suf.data.reverse s.data.reverse

/-- Model of Python `str.startswith`. -/
def strStartsWith (s pre : String) : Bool := listStarts pre.data s.data

/-- `listInfix pat cs`: `pat` occurs contiguously inside `cs`. -/
def listInfix (pat : List Char) : List Char → Bool
  | [] => listStarts pat []
  | c :: cs => listStarts pat (c :: cs) || listInfix pat cs

/-- Model of Python `needle in hay` on strings. -/
def strContains (hay needle : String) : Bool := listInfix needle.data hay.data

/-- Code-point lexicographic strict order on character lists
(Python string `<`). -/
def charListLt : List Char → List Char → Bool
  | [], [] => false
  | [], _ :: _ => true
  | _ :: _, [] => false
  | a :: as, b :: bs => if a < b then true else if a = b then charListLt as bs else false

/-- Python string `<`. -/
def strLt (a b : String) : Bool := charListLt a.data b.data

/-- Python string `<=`. -/
def strLe (a b : String) : Bool := strLt a b || a == b

/-- Nonempty all-digit string: Python `re.fullmatch(r'\d+', s)` (ASCII). -/
def isDigits (s : String) : Bool := !s.data.isEmpty && s.data.all Char.isDigit

/-- Digits to number, most significant first. -/
def digitsToNat (cs : List Char) : Nat :=
  cs.foldl (fun n c => n * 10 + (c.toNat - '0'.toNat)) 0

/-- Model of Python `int(s)` on candidate strings: succeeds exactly on
nonempty all-digit strings (the only inputs the source feeds it). -/
def strToNatOpt (s : String) : Option Nat :=
  if isDigits s then some (digitsToNat s.data) else none

/-- Decimal rendering of a natural number (Python `str(n)` / f-string),
fuel-based so it evaluates in the kernel. -/
def natToStrAux : Nat → Nat → List Char → List Char
  | 0, _, acc => acc
  | Nat.succ fl, n, acc =>
    let d := Char.ofNat (48 + n % 10)
    if n < 10 then d :: acc else natToStrAux fl (n / 10) (d :: acc)

/-- Decimal rendering of a natural number. -/
def natToStr (n : Nat) : String := String.mk (natToStrAux (n + 1) n [])

/-- Index of the last occurrence of `c` (Python `str.rfind`). -/
def lastIdx (c : Char) (cs : List Char) : Option Nat :=
  (cs.foldl (fun (st : Nat × Option Nat) x =>
    (st.1 + 1, if x = c then some st.1 else st.2)) (0, none)).2

/-- Model of Python `os.path.splitext` on a bare file name: split at the
last dot, unless every character before it is a dot (then no extension). -/
def splitext (s : String) : String × String :=
  match lastIdx '.' s.data with
  | none => (s, "")
  | some i =>
    if (s.data.take i).any (fun c => c ≠ '.') then
      (String.mk (s.data.take i), String.mk (s.data.drop i))
    else (s, "")

/-- Replace all non-overlapping occurrences of `pat` (left to right),
fuel-based: Python `str.replace` for nonempty patterns. -/
def replaceCL (pat rep : List Char) : Nat → List Char → List Char
  | _, [] => []
  | 0, s => s
  | Nat.succ fl, c :: cs =>
    if listStarts pat (c :: cs) && !pat.isEmpty then
      rep ++ replaceCL pat rep fl ((c :: cs).drop pat.length)
    else c :: replaceCL pat rep fl cs

/-- Python `s.replace(pat, rep)` for nonempty `pat`. -/
def replaceStr (s pat rep : String) : String :=
  String.mk (replaceCL pat.data rep.data s.data.length s.data)

/-- Split a character list on a separator (Python `str.split(sep)`). -/
def splitOnChar (c : Char) : List Char → List (List Char)
  | [] => [[]]
  | x :: xs =>
    let r := splitOnChar c xs
    if x = c then [] :: r
    else
      match r with
      | [] => [[x]]
      | y :: ys => (x :: y) :: ys

/-- Stable insertion of `a` in front of the first element it is `le` to. -/
def insertLe (le : α → α → Bool) (a : α) : List α → List α
  | [] => [a]
  | b :: bs => if le a b then a :: b :: bs else b :: insertLe le a bs

/-- Stable insertion sort.  For a total transitive `le` this agrees with
Python's (stable) `sorted`/`list.sort`. -/
def sortLe (le : α → α → Bool) : List α → List α
  | [] => []
  | a :: as => insertLe le a (sortLe le as)

/-- First-occurrence deduplication of a string list, keeping order
(Python `set` membership filtering / `drop_duplicates`). -/
def dedupAux (seen : List String) : List String → List String
  | [] => []
  | x :: xs =>
    if seen.contains x then dedupAux seen xs
    else x :: dedupAux (x :: seen) xs

/-- First-occurrence deduplication of a string list. -/
def dedupKeepFirst (l : List String) : List String := dedupAux [] l

/-- A file on disk: name, byte content (abstract string), the sequence of
page contents the PDF library extracts from it (empty for non-PDF data),
and whether the PDF library can open it (`fitz.open` succeeding). -/
structure WFile where
  name : String
  content : String
  pages : List String
  readable : Bool
deriving DecidableEq, Repr

/-- `os.path.getsize`: byte length of the content. -/
def WFile.size (f : WFile) : Nat := f.content.data.length

/-- First file carrying exactly this name (a directory listing lookup). -/
def lookupFile (files : List WFile) (n : String) : Option WFile :=
  files.find? (fun f => f.name == n)

/-- `os.path.exists` inside one directory. -/
def hasFile (files : List WFile) (n : String) : Bool :=
  (lookupFile files n).isSome

/-- Create-or-overwrite a file by exact name (a plain write). -/
def putFile (files : List WFile) (f : WFile) : List WFile :=
  if hasFile files f.name then
    files.map (fun g => if g.name == f.name then f else g)
  else files ++ [f]

/-- Collision-candidate name `base_dup<i><ext>` from `safe_copy`. -/
def dupName (base ext : String) (i : Nat) : String :=
  base ++ "_dup" ++ natToStr i ++ ext

/-- The `while os.path.exists(candidate)` loop of `safe_copy`: starting from
`cand` with counter `i`, return the first candidate name not present.
Fuel-based; `safe_copy` passes enough fuel to cover every existing file. -/
def safeCandidate (files : List WFile) (base ext : String) :
    String → Nat → Nat → String
  | cand, _, 0 => cand
  | cand, i, Nat.succ fl =>
    if hasFile files cand then safeCandidate files base ext (dupName base ext i) (i + 1) fl
    else cand

/-- `safe_copy(src, dest)` restricted to one destination directory
(`os.makedirs` of the parent is implicit: the directory is the model).
If a file named `destName` exists with the same byte size as `src`, the
copy is skipped and `destName` returned.  Otherwise the first unused name
among `destName, base_dup1+ext, base_dup2+ext, …` receives a full copy of
`src` (`shutil.copy2` keeps content and metadata).  Returns the directory
after the call together with the returned path. -/
def safe_copy (files : List WFile) (src : WFile) (destName : String) :
    List WFile × String :=
  let be := splitext destName
  match lookupFile files destName with
  | some g =>
    if src.size == g.size then (files, destName)
    else
      let cand := safeCandidate files be.1 be.2 destName 1 (files.length + 1)
      (files ++ [{ src with name := cand }], cand)
  | none =>
    let cand := safeCandidate files be.1 be.2 destName 1 (files.length + 1)
    (files ++ [{ src with name := cand }], cand)

/-- Sort key returned by `get_sort_key`: `(0, int)` for numeric names,
`(rank, string)` otherwise, compared like Python tuples. -/
inductive SortKey where
  | knum : Nat → SortKey
  | kstr : Nat → String → SortKey
deriving DecidableEq, Repr

/-- `get_sort_key(filename)`: numeric base names map to `(0, int(base))`
(the `ValueError` fallback `(99, base)` is unreachable for all-digit
bases); names ending in `_fri.pdf` map to
`(2, name.replace("_fri.pdf", ".pdf"))`; everything else to `(1, name)`,
all computed on the lower-cased name. -/
def get_sort_key (filename : String) : SortKey :=
  let name := pyLower filename
  let base := (splitext name).1
  if isDigits base then
    match strToNatOpt base with
    | some v => SortKey.knum v
    | none => SortKey.kstr 99 base
  else if strEndsWith name "_fri.pdf" then
    SortKey.kstr 2 (replaceStr name "_fri.pdf" ".pdf")
  else SortKey.kstr 1 name

/-- Python tuple comparison of the two key shapes (string ranks are always
positive, so a numeric key `(0, _)` precedes every string key). -/
def keyLE : SortKey → SortKey → Bool
  | SortKey.knum v, SortKey.knum w => v ≤ w
  | SortKey.knum _, SortKey.kstr _ _ => true
  | SortKey.kstr _ _, SortKey.knum _ => false
  | SortKey.kstr r s, SortKey.kstr r' s' =>
    if r < r' then true else if r = r' then strLe s s' else false

/-- `pdf_files.sort(key=get_sort_key)` (Python's sort is stable; for the
total transitive key order below, stable sorts are unique, so stable
insertion sort reproduces it). -/
def sortPdfFiles (files : List WFile) : List WFile :=
  sortLe (fun a b => keyLE (get_sort_key a.name) (get_sort_key b.name)) files

/-- Collision-free abstraction of SHA-256 over a page's XML text. -/
def sha256Model (s : String) : String := s

/-- `page_hash(page)`: digest of the page's extracted XML content. -/
def page_hash (pageXml : String) : String := sha256Model pageXml

/-- One step of the merge deduplication: `acc = (seen_hashes, output
pages)`; a page is appended exactly when its hash is unseen. -/
def dedupInsert (acc : List String × List String) (p : String) :
    List String × List String :=
  let h := page_hash p
  if acc.1.contains h then acc else (acc.1 ++ [h], acc.2 ++ [p])

/-- Per-file part of the merge loop: an unopenable file raises inside its
`try`, is logged, and contributes nothing; a readable file streams its
pages through the deduplicator. -/
def mergeFilePages (acc : List String × List String) (f : WFile) :
    List String × List String :=
  if f.readable then f.pages.foldl dedupInsert acc else acc

/-- The page list accumulated by `combine_pdfs` for one folder, given the
already-sorted candidate files. -/
def mergeLoop (files : List WFile) : List String :=
  (files.foldl mergeFilePages ([], [])).2

/-- Persisted merge-cache entry (`.merge_cache.json`): folder-scope source
fingerprint and write-time timestamp. -/
structure CacheEntry where
  source_hash : String
  timestamp : Nat
deriving DecidableEq, Repr

/-- A direct-child folder of the destination root.  The two sidecar files
the stages read by fixed name (`.merge_cache.json` and `output.xlsx`) are
modelled as dedicated fields holding their parsed content; every stage
that would touch them as plain directory entries (notably stage-5 cleanup)
applies its file rules to their literal names. -/
structure MFolder where
  name : String
  files : List WFile
  cache : Option CacheEntry
  isoExcel : Option (List String)
deriving DecidableEq, Repr

/-- Stage-6 candidate filter: PDF files other than the folder's own merged
output, skipping dot-files (which excludes the cache sidecar). -/
def candidateFiles (folder : MFolder) : List WFile :=
  folder.files.filter (fun f =>
    strEndsWith (pyLower f.name) ".pdf" &&
    pyLower f.name != pyLower folder.name ++ ".pdf" &&
    !strStartsWith f.name ".")

/-- `get_folder_source_hash`: md5 over the byte contents of the candidate
files concatenated in sorted name order, modelled collision-free as the
concatenation itself. -/
def folderSourceHash (files : List WFile) : String :=
  ((sortLe (fun a b => strLe a.name b.name) files).map (fun f => f.content)).foldl
    (fun acc c => acc ++ c) ""

/-- Cache check of `combine_pdfs`: an existing entry whose stored
fingerprint equals the current one short-circuits the merge. -/
def cacheMatches (folder : MFolder) (h : String) : Bool :=
  match folder.cache with
  | some c => c.source_hash == h
  | none => false

/-- Deterministic abstraction of the bytes `fitz` writes for a given page
sequence (`combined_pdf.save(..., garbage=4, deflate=True)`). -/
def encodePages (ps : List String) : String :=
  ps.foldl (fun acc p => acc ++ "|" ++ p) "PDF"

/-- The merged output file stage 6 writes for a folder. -/
def mergedOutputFile (folder : MFolder) : WFile :=
  let pages := mergeLoop (sortPdfFiles (candidateFiles folder))
  ⟨folder.name ++ ".pdf", encodePages pages, pages, true⟩

/-- Result of processing one folder in stage 6: the folder afterwards,
whether a merge was counted, and whether an uncaught exception escaped
(the `combined_pdf.save` call sits outside any per-folder `except`). -/
structure CombineRes where
  folder : MFolder
  merged : Bool
  failed : Bool
deriving DecidableEq, Repr

/-- Stage-6 body for one folder (`combine_pdfs` loop body): filter
candidates, compare the source fingerprint against the cache sidecar, sort,
deduplicate pages, and if any page survived, save the merged output and
only then write the fresh cache entry.  A save whose path is listed in
`failingWrites` raises: the folder keeps its previous output and cache and
the exception escapes the stage. -/
def combineFolder (now : Nat) (failingWrites : List String)
    (folder : MFolder) : CombineRes :=
  let pdf_files := candidateFiles folder
  if pdf_files.isEmpty then ⟨folder, false, false⟩
  else
    let h := folderSourceHash pdf_files
    if cacheMatches folder h then ⟨folder, false, false⟩
    else
      let pages := mergeLoop (sortPdfFiles pdf_files)
      if pages.length > 0 then
        if failingWrites.contains (folder.name ++ "/" ++ folder.name ++ ".pdf") then
          ⟨folder, false, true⟩
        else
          ⟨{ folder with
              files := putFile folder.files (mergedOutputFile folder),
              cache := some ⟨h, now⟩ }, true, false⟩
      else ⟨folder, false, false⟩

/-- Result of stage 6 over the whole destination tree. -/
structure CombineTreeRes where
  tree : List MFolder
  count : Nat
  failed : Bool
deriving DecidableEq, Repr

/-- `combine_pdfs` over the direct-child folders: a save exception aborts
the remaining folders (the `for` loop has no per-folder handler). -/
def combineTree (now : Nat) (fw : List String) : List MFolder → CombineTreeRes
  | [] => ⟨[], 0, false⟩
  | f :: rest =>
    let r := combineFolder now fw f
    if r.failed then ⟨r.folder :: rest, if r.merged then 1 else 0, true⟩
    else
      let rr := combineTree now fw rest
      ⟨r.folder :: rr.tree, (if r.merged then 1 else 0) + rr.count, rr.failed⟩

/-- One row of the primary entity table `loop_system_iso.xlsx`
(all cells read as strings, `NaN` as `""`). -/
structure Row where
  iso : String
  loopNo : String
  sysNo : String
  folderName : String
  history : String
  status : String
deriving DecidableEq, Repr

/-- `make_folder_name(loop_no, system_no)`. -/
def make_folder_name (loopNo sysNo : String) : String :=
  pyStrip loopNo ++ "_" ++ pyStrip sysNo

/-- Stage-5 ISO list for one folder name, from the primary table
(`folder_iso_map`): stripped ISO numbers of the rows whose stripped folder
name equals it, both nonempty. -/
def expectedIsos (table : List Row) (folderName : String) : List String :=
  (table.filter (fun r =>
    pyStrip r.folderName == folderName && pyStrip r.folderName != "" &&
    pyStrip r.iso != "")).map (fun r => pyStrip r.iso)

/-- Full name pattern `^\d+\.pdf$` on the lower-cased name
(extracted-range files such as `1.pdf`, `10.pdf`). -/
def isNumericPdfName (n : String) : Bool :=
  let l := pyLower n
  strEndsWith l ".pdf" && isDigits (String.mk (l.data.take (l.data.length - 4)))

/-- The `belongs` flag of `cleanup_redundancy` for one file: name contains
some expected ISO (case-insensitively), or is an extracted-range name, or
is a backup (`_fri.pdf`) name. -/
def belongsFile (expected : List String) (fileName : String) : Bool :=
  expected.any (fun iso => strContains (pyLower fileName) (pyLower iso)) ||
  isNumericPdfName fileName ||
  strEndsWith (pyLower fileName) "_fri.pdf"

/-- A file survives stage 5 when it is the folder's merged output (kept by
the explicit `continue`) or `belongs`. -/
def keepInCleanup (expected : List String) (folderName fileName : String) : Bool :=
  pyLower fileName == pyLower folderName ++ ".pdf" || belongsFile expected fileName

/-- Stage-5 body for one folder: folders with no expected ISOs are skipped
wholesale; otherwise every regular file failing `keepInCleanup` is removed.
The sidecar files are ordinary directory entries, so the same rules are
applied to their literal names `.merge_cache.json` and `output.xlsx`. -/
def cleanupFolder (expected : List String) (folder : MFolder) : MFolder :=
  if expected.isEmpty then folder
  else
    { folder with
      files := folder.files.filter (fun f => keepInCleanup expected folder.name f.name),
      cache := if keepInCleanup expected folder.name ".merge_cache.json" then folder.cache else none,
      isoExcel := if keepInCleanup expected folder.name "output.xlsx" then folder.isoExcel else none }

/-- `cleanup_redundancy(dest_root, excel_file)` over the direct-child
folders of the destination root. -/
def cleanup_redundancy (table : List Row) (tree : List MFolder) : List MFolder :=
  tree.map (fun folder => cleanupFolder (expectedIsos table folder.name) folder)

/-- `rfind`-based parenthesis extraction of `find_iso_on_server`: the text
between the last `(` and the last `)` when the former precedes the
latter. -/
def extractParensRfind (item : String) : Option String :=
  let cs := item.data
  match lastIdx '(' cs, lastIdx ')' cs with
  | some a, some b =>
    if a < b then some (String.mk ((cs.take b).drop (a + 1))) else none
  | _, _ => none

/-- `find_iso_on_server(iso_no, server_path)`: first server file (listing
order) that is a PDF, contains `(` and `)`, and whose `rfind`-extracted
parenthesis text equals the stripped ISO case-insensitively. -/
def find_iso_on_server (isoNo : String) (server : List WFile) : Option WFile :=
  if isoNo == "" then none
  else
    let iso := pyStrip isoNo
    server.find? (fun f =>
      strEndsWith (pyLower f.name) ".pdf" &&
      strContains f.name "(" && strContains f.name ")" &&
      (match extractParensRfind f.name with
       | some ex => pyLower ex == pyLower iso
       | none => false))

/-- State threaded through the stage-1 reconciliation loop: the (mutable)
table, the destination tree, and the `processed_folders` key set. -/
structure P1State where
  table : List Row
  tree : List MFolder
  processed : List (String × String)
deriving DecidableEq, Repr

/-- `os.path.exists` for a direct-child folder. -/
def treeHas (tree : List MFolder) (n : String) : Bool :=
  tree.any (fun f => f.name == n)

/-- Folder lookup by name. -/
def treeFolder (tree : List MFolder) (n : String) : Option MFolder :=
  tree.find? (fun f => f.name == n)

/-- Files of a named folder (empty when absent). -/
def treeGetFiles (tree : List MFolder) (n : String) : List WFile :=
  match treeFolder tree n with
  | some f => f.files
  | none => []

/-- `os.rename` of a direct-child folder (everything inside moves). -/
def treeRename (tree : List MFolder) (old new : String) : List MFolder :=
  tree.map (fun f => if f.name == old then { f with name := new } else f)

/-- Remove a folder entry (`os.rmdir` once emptied). -/
def treeRemove (tree : List MFolder) (n : String) : List MFolder :=
  tree.filter (fun f => !(f.name == n))

/-- `os.makedirs(..., exist_ok=True)` for a direct child. -/
def treeMakedirs (tree : List MFolder) (n : String) : List MFolder :=
  if treeHas tree n then tree else tree ++ [⟨n, [], none, none⟩]

/-- Apply an update to the named folder. -/
def treeUpdate (tree : List MFolder) (n : String) (g : MFolder → MFolder) :
    List MFolder :=
  tree.map (fun f => if f.name == n then g f else f)

/-- Set the history cell of the row at `idx` (`df.at[idx, "history folder
name"] = v`). -/
def setHistoryAt : List Row → Nat → String → List Row
  | [], _, _ => []
  | r :: rs, 0, v => { r with history := v } :: rs
  | r :: rs, Nat.succ n, v => r :: setHistoryAt rs n v

/-- `df.loc[df["history folder name"] == hist, "history folder name"] =
desired`: every row whose raw history cell equals `hist` is rewritten. -/
def batchSetHistory (table : List Row) (hist desired : String) : List Row :=
  table.map (fun r => if r.history == hist then { r with history := desired } else r)

/-- File-by-file merge of a history folder into an existing desired folder
(stage 1 collision branch): an existing destination name goes through
`safe_copy` (then the source is removed); a missing one is moved. -/
def mergeFolderFiles (histFiles destFiles : List WFile) : List WFile :=
  histFiles.foldl (fun dst f =>
    if hasFile dst f.name then (safe_copy dst f f.name).1 else dst ++ [f])
    destFiles

/-- Stage-1 collision branch: copy every file of `hist` into `desired`,
then remove the emptied history folder.  The history folder's sidecars are
directory entries and move along; only the exact-name sidecar survives as
the destination's sidecar (a `_dup` copy of a sidecar is junk no stage
reads, so it is not tracked). -/
def treeMergeInto (tree : List MFolder) (hist desired : String) : List MFolder :=
  let hFolder := treeFolder tree hist
  match hFolder with
  | none => tree
  | some hf =>
    let t1 := treeUpdate tree desired (fun df =>
      { df with
        files := mergeFolderFiles hf.files df.files,
        cache := match df.cache with | some c => some c | none => hf.cache,
        isoExcel := match df.isoExcel with | some l => some l | none => hf.isoExcel })
    treeRemove t1 hist

/-- One iteration of the stage-1 reconciliation loop (`iso_manager`, rows
via `iterrows`; updates made by earlier iterations are visible).  Mirrors:
skip blank names; a `processed_folders` hit only rewrites the row's
history; otherwise rename or merge the physical folder, batch-update every
row storing this history, create the desired folder when absent, and set
this row's history to the desired name. -/
def reconcileRow (st : P1State) (idx : Nat) : P1State :=
  match st.table.get? idx with
  | none => st
  | some row =>
    let desired := pyStrip row.folderName
    let history := pyStrip row.history
    if desired == "" || history == "" then st
    else if st.processed.contains (history, desired) then
      { st with table := setHistoryAt st.table idx desired }
    else
      let st1 :=
        if history != desired && treeHas st.tree history then
          let tree' :=
            if !treeHas st.tree desired then treeRename st.tree history desired
            else treeMergeInto st.tree history desired
          { st with
            tree := tree',
            table := batchSetHistory st.table history desired,
            processed := st.processed ++ [(history, desired)] }
        else st
      let st2 :=
        if !treeHas st1.tree desired then { st1 with tree := treeMakedirs st1.tree desired }
        else st1
      { st2 with table := setHistoryAt st2.table idx desired }

/-- The whole stage-1 reconciliation loop over all row indices. -/
def reconcilePass (table : List Row) (tree : List MFolder) : P1State :=
  (List.range table.length).foldl reconcileRow ⟨table, tree, []⟩

/-- Set the status cell of the row at `idx`. -/
def setStatusAt : List Row → Nat → String → List Row
  | [], _, _ => []
  | r :: rs, 0, v => { r with status := v } :: rs
  | r :: rs, Nat.succ n, v => r :: setStatusAt rs n v

/-- One iteration of the stage-1 copy loop: skip blank keys; a missing
server ISO creates the folder and marks the row `MISSING`; a found one is
`safe_copy`-ed into the folder (whose parent `makedirs` happens inside
`safe_copy`) and the row marked `OK`.  Copy errors are caught per row; the
model's copies succeed. -/
def copyRow (server : List WFile) (st : List Row × List MFolder) (idx : Nat) :
    List Row × List MFolder :=
  match st.1.get? idx with
  | none => st
  | some row =>
    let iso := pyStrip row.iso
    let folder := pyStrip row.folderName
    if folder == "" || iso == "" then st
    else
      match find_iso_on_server iso server with
      | none =>
        (setStatusAt st.1 idx "MISSING", treeMakedirs st.2 folder)
      | some src =>
        let tr1 := treeMakedirs st.2 folder
        (setStatusAt st.1 idx "OK",
         treeUpdate tr1 folder (fun f => { f with files := (safe_copy f.files src src.name).1 }))

/-- `iso_manager(excel_file, server_path, dest_root)`: recompute every
folder name, run the reconciliation loop, then the copy loop; the updated
table is written back (returned). -/
def iso_manager (server : List WFile) (table : List Row) (tree : List MFolder) :
    List Row × List MFolder :=
  let t1 := table.map (fun r => { r with folderName := make_folder_name r.loopNo r.sysNo })
  let st := reconcilePass t1 tree
  (List.range st.table.length).foldl (copyRow server) (st.table, st.tree)

/-- Capture group of stage 2's pattern `\(([^)]+)\)\.pdf$` (IGNORECASE):
for a name ending in `).pdf`, the text between the leftmost `(` that has no
`)` before the final `)` and that final `)`, when nonempty. -/
def p2Capture (fileName : String) : Option String :=
  let cs := fileName.data
  let n := cs.length
  if n < 5 then none
  else if String.mk ((cs.drop (n - 4)).map Char.toLower) != ".pdf" then none
  else if (cs.take (n - 4)).getLast? != some ')' then none
  else
    let seg := cs.take (n - 5)
    let tl :=
      match lastIdx ')' seg with
      | none => seg
      | some i => seg.drop (i + 1)
    match tl.findIdx? (fun c => c = '(') with
    | none => none
    | some i =>
      let inner := tl.drop (i + 1)
      if inner.isEmpty then none else some (String.mk inner)

/-- Stage-2 ISO derivation for one file name: the captured text is split on
`-`; with at least two segments the ISO is
`segments[0].strip() + "-" + segments[1].strip()`. -/
def p2IsoOf (fileName : String) : Option String :=
  match p2Capture fileName with
  | none => none
  | some inner =>
    let segs := splitOnChar '-' inner.data
    match segs with
    | s0 :: s1 :: _ =>
      some (pyStrip (String.mk s0) ++ "-" ++ pyStrip (String.mk s1))
    | _ => none

/-- Stage-2 body for one folder (`generate_excel`): collect the ISO set of
the folder's PDF names; when nonempty, append the sorted new ISOs to the
folder's `output.xlsx` (creating it when absent), deduplicated. -/
def generateFolderExcel (folder : MFolder) : MFolder :=
  let pdf_files := folder.files.filter (fun f => strEndsWith (pyLower f.name) ".pdf")
  let iso_set := dedupKeepFirst (pdf_files.filterMap (fun f => p2IsoOf f.name))
  if iso_set.isEmpty then folder
  else
    let sortedIsos := sortLe strLe iso_set
    let existing := match folder.isoExcel with | some l => l | none => []
    let new_isos := sortedIsos.filter (fun i => !existing.contains i)
    if !new_isos.isEmpty || folder.isoExcel == none then
      let finalList :=
        if !existing.isEmpty && folder.isoExcel != none then
          dedupKeepFirst (existing ++ new_isos)
        else new_isos
      { folder with isoExcel := some finalList }
    else folder

/-- `generate_excel(dest_root)` over the direct-child folders. -/
def generate_excel (tree : List MFolder) : List MFolder :=
  tree.map generateFolderExcel

/-- Stage-3 global map from the master page-index sheet: rows with nonempty
stripped ISO and page string, later rows overwriting earlier keys
(`iso_page_map[iso.upper()] = pages`). -/
def buildIsoPageMap (idx : List (String × String)) : List (String × String) :=
  idx.foldl (fun m r =>
    let iso := pyStrip r.1
    let pages := pyStrip r.2
    if iso != "" && pages != "" then m ++ [(pyUpper iso, pages)] else m) []

/-- `iso_page_map.get(iso, "")` with dict overwrite semantics. -/
def isoPageLookup (m : List (String × String)) (k : String) : String :=
  match (m.filter (fun p => p.1 == k)).getLast? with
  | some p => p.2
  | none => ""

/-- The single-page file stage 3 writes for master page `page`
(`PyPDF2.PdfWriter` output bytes, modelled deterministically). -/
def extractedPageFile (num : Nat) (page : String) : WFile :=
  ⟨natToStr num ++ ".pdf", "PYPDF|" ++ page, [page], true⟩

/-- Stage-3 body for one folder: for every ISO of the folder's
`output.xlsx`, look up its page string, and for each in-range page number
write `<n>.pdf` unless it already exists. -/
def p3Folder (master : List String) (m : List (String × String))
    (folder : MFolder) : MFolder :=
  match folder.isoExcel with
  | none => folder
  | some isos =>
    isos.foldl (fun fo isoEntry =>
      let iso := pyUpper (pyStrip isoEntry)
      if iso == "" then fo
      else
        let pages_str := isoPageLookup m iso
        if pages_str == "" then fo
        else
          (splitOnChar ',' pages_str.data).foldl (fun fo2 pseg =>
            let p := pyStrip (String.mk pseg)
            if isDigits p then
              let num := digitsToNat p.data
              if 1 ≤ num && num ≤ master.length then
                let oname := natToStr num ++ ".pdf"
                if hasFile fo2.files oname then fo2
                else { fo2 with
                       files := fo2.files ++ [extractedPageFile num (master.getD (num - 1) "")] }
              else fo2
            else fo2) fo) folder

/-- `extract_pages(dest_root, pdf_path, page_index_excel)`: a missing or
unopenable master document, or a missing page-index sheet, logs an error
and returns with the tree untouched; otherwise every folder carrying an
`output.xlsx` is processed. -/
def extract_pages (master : Option (List String))
    (pageIndex : Option (List (String × String)))
    (tree : List MFolder) : List MFolder :=
  match master with
  | none => tree
  | some mpages =>
    match pageIndex with
    | none => tree
    | some idx => tree.map (p3Folder mpages (buildIsoPageMap idx))

/-- Leftmost `\(([^)]+)\)` capture (stage 4's
`extract_name_in_parentheses` before stripping): scan for the first `(`
followed by at least one non-`)` character and then a `)`. -/
def firstParen : List Char → Option (List Char)
  | [] => none
  | c :: cs =>
    if c = '(' then
      let inner := cs.takeWhile (fun x => x ≠ ')')
      if !inner.isEmpty && inner.length < cs.length then some inner
      else firstParen cs
    else firstParen cs

/-- `extract_name_in_parentheses(filename)`. -/
def extract_name_in_parentheses (filename : String) : Option String :=
  match firstParen filename.data with
  | some inner => some (pyStrip (String.mk inner))
  | none => none

/-- Stage-4 index over the backup-source archive: PDF files grouped by
lower-cased stem, in first-seen key order (`defaultdict` insertion
order).  The on-disk index cache only avoids recomputation and is not
observable here, so the index is built fresh. -/
def buildLinewiseIndex (linewise : List WFile) : List (String × List WFile) :=
  linewise.foldl (fun idx f =>
    if strEndsWith (pyLower f.name) ".pdf" then
      let key := pyLower (splitext f.name).1
      if idx.any (fun e => e.1 == key) then
        idx.map (fun e => if e.1 == key then (e.1, e.2 ++ [f]) else e)
      else idx ++ [(key, [f])]
    else idx) []

/-- Stage-4 body for one folder: for every non-backup PDF with a
parenthesised base name, copy each archive file whose index key contains
that base name to `<stem>_FRI.pdf` in the folder, unless a same-size copy
already exists (`shutil.copy2` overwrites a differing one). -/
def fricopyFolder (index : List (String × List WFile)) (folder : MFolder) :
    MFolder :=
  let backups := folder.files.filter (fun f =>
    strEndsWith (pyLower f.name) ".pdf" && !strEndsWith (pyLower f.name) "_fri.pdf")
  { folder with
    files := backups.foldl (fun fs bf =>
      match extract_name_in_parentheses bf.name with
      | none => fs
      | some base =>
        let bl := pyLower base
        index.foldl (fun fs2 entry =>
          if strContains entry.1 bl then
            entry.2.foldl (fun fs3 lw =>
              let target := (splitext lw.name).1 ++ "_FRI.pdf"
              match lookupFile fs3 target with
              | some ex =>
                if lw.size != ex.size then putFile fs3 { lw with name := target } else fs3
              | none => fs3 ++ [{ lw with name := target }]) fs2
          else fs2) fs) folder.files }

/-- `fricopy(backup_root, linewise_root)`: an empty archive index logs an
error and leaves the tree untouched; otherwise every direct-child folder
receives its backup copies. -/
def fricopy (linewise : List WFile) (tree : List MFolder) : List MFolder :=
  let index := buildLinewiseIndex linewise
  if index.isEmpty then tree
  else tree.map (fricopyFolder index)

/-- A folder with no directory entries at all (`not os.listdir(...)`),
the sidecars counting as entries. -/
def folderEmpty (f : MFolder) : Bool :=
  f.files.isEmpty && f.cache == none && f.isoExcel == none

/-- Stage 7 (`final_cleanup_and_verify`): remove orphaned empty folders not
named by any table row; empty folders that are named are only reported. -/
def p7Step (table : List Row) (tree : List MFolder) : List MFolder :=
  tree.filter (fun folder =>
    !(!(table.any (fun r => r.folderName == folder.name)) && folderEmpty folder))

/-- The whole observable state the pipeline runs over: the primary table,
the destination tree, the server archive, the backup-source archive, the
master document's pages (`none`: missing or unopenable), the master page
index (`none`: missing), the set of write paths that raise, and the
clock. -/
structure World where
  table : List Row
  tree : List MFolder
  server : List WFile
  linewise : List WFile
  master : Option (List String)
  pageIndex : Option (List (String × String))
  failingWrites : List String
  clock : Nat
deriving DecidableEq, Repr

/-- Outcome of one full run: final state, number of folders merged by
stage 6, and whether an uncaught exception aborted the tail of the run
(caught only by `main`'s top-level handler). -/
structure RunRes where
  world : World
  mergedCount : Nat
  aborted : Bool
deriving DecidableEq, Repr

/-- One run of the seven-stage workflow from `main`: stages 1–6 in order;
an exception escaping stage 6 skips stage 7 and ends the run. -/
def runPipeline (w : World) : RunRes :=
  let p1 := iso_manager w.server w.table w.tree
  let tr2 := generate_excel p1.2
  let tr3 := extract_pages w.master w.pageIndex tr2
  let tr4 := fricopy w.linewise tr3
  let tr5 := cleanup_redundancy p1.1 tr4
  let r6 := combineTree w.clock w.failingWrites tr5
  if r6.failed then ⟨{ w with table := p1.1, tree := r6.tree }, r6.count, true⟩
  else
    let tr7 := p7Step p1.1 r6.tree
    ⟨{ w with table := p1.1, tree := tr7 }, r6.count, false⟩

/-- The same workflow with stage 3 omitted (reference composition used to
state what a missing master document changes). -/
def runPipelineNoP3 (w : World) : RunRes :=
  let p1 := iso_manager w.server w.table w.tree
  let tr2 := generate_excel p1.2
  let tr4 := fricopy w.linewise tr2
  let tr5 := cleanup_redundancy p1.1 tr4
  let r6 := combineTree w.clock w.failingWrites tr5
  if r6.failed then ⟨{ w with table := p1.1, tree := r6.tree }, r6.count, true⟩
  else
    let tr7 := p7Step p1.1 r6.tree
    ⟨{ w with table := p1.1, tree := tr7 }, r6.count, false⟩

/-! ### Order lemmas for the string and key comparators -/

theorem charListLt_trans : ∀ a b c : List Char,
    charListLt a b = true → charListLt b c = true → charListLt a c = true := by
  intro a
  induction a with
  | nil =>
    intro b c hab hbc
    cases c with
    | nil => cases b <;> simp [charListLt] at hbc
    | cons z zs => simp [charListLt]
  | cons x xs ih =>
    intro b c hab hbc
    cases b with
    | nil => simp [charListLt] at hab
    | cons y ys =>
      cases c with
      | nil => simp [charListLt] at hbc
      | cons z zs =>
        simp only [charListLt] at hab hbc ⊢
        rcases lt_trichotomy x y with hxy | hxy | hxy
        · rcases lt_trichotomy y z with hyz | hyz | hyz
          · simp [lt_trans hxy hyz]
          · subst hyz; simp [hxy]
          · rw [if_neg (asymm hyz), if_neg (ne_of_gt hyz)] at hbc
            simp at hbc
        · subst hxy
          rw [if_neg (lt_irrefl x), if_pos rfl] at hab
          rcases lt_trichotomy x z with hxz | hxz | hxz
          · simp [hxz]
          · subst hxz
            rw [if_neg (lt_irrefl x), if_pos rfl] at hbc ⊢
            exact ih ys zs hab hbc
          · rw [if_neg (asymm hxz), if_neg (ne_of_gt hxz)] at hbc
            simp at hbc
        · rw [if_neg (asymm hxy), if_neg (ne_of_gt hxy)] at hab
          simp at hab

theorem charListLt_total3 : ∀ a b : List Char,
    charListLt a b = true ∨ charListLt b a = true ∨ a = b := by
  intro a
  induction a with
  | nil =>
    intro b
    cases b with
    | nil => right; right; rfl
    | cons y ys => left; simp [charListLt]
  | cons x xs ih =>
    intro b
    cases b with
    | nil => right; left; simp [charListLt]
    | cons y ys =>
      rcases lt_trichotomy x y with h | h | h
      · left; simp [charListLt, h]
      · subst h
        rcases ih ys with h2 | h2 | h2
        · left; simp [charListLt, h2]
        · right; left; simp [charListLt, h2]
        · right; right; rw [h2]
      · right; left; simp [charListLt, h]

theorem strLe_total (a b : String) : strLe a b = true ∨ strLe b a = true := by
  rcases charListLt_total3 a.data b.data with h | h | h
  · left; simp [strLe, strLt, h]
  · right; simp [strLe, strLt, h]
  · left
    have hab : a = b := by
      cases a; cases b; exact congrArg String.mk h
    simp [strLe, hab]

theorem strLt_trans (a b c : String) (h1 : strLt a b = true) (h2 : strLt b c = true) :
    strLt a c = true :=
  charListLt_trans a.data b.data c.data h1 h2

theorem strLe_trans (a b c : String) (h1 : strLe a b = true) (h2 : strLe b c = true) :
    strLe a c = true := by
  simp only [strLe, Bool.or_eq_true, beq_iff_eq] at h1 h2 ⊢
  rcases h1 with h1 | h1
  · rcases h2 with h2 | h2
    · exact Or.inl (strLt_trans a b c h1 h2)
    · subst h2; exact Or.inl h1
  · subst h1; exact h2

theorem keyLE_trans (k1 k2 k3 : SortKey) (h1 : keyLE k1 k2 = true)
    (h2 : keyLE k2 k3 = true) : keyLE k1 k3 = true := by
  cases k1 with
  | knum v =>
    cases k3 with
    | knum w =>
      cases k2 with
      | knum u =>
        simp only [keyLE, decide_eq_true_eq] at h1 h2 ⊢
        exact le_trans h1 h2
      | kstr r s => simp [keyLE] at h2
    | kstr r s => simp [keyLE]
  | kstr r1 s1 =>
    cases k2 with
    | knum u => simp [keyLE] at h1
    | kstr r2 s2 =>
      cases k3 with
      | knum w => simp [keyLE] at h2
      | kstr r3 s3 =>
        simp only [keyLE] at h1 h2 ⊢
        rcases lt_trichotomy r1 r2 with ha | ha | ha
        · rcases lt_trichotomy r2 r3 with hb | hb | hb
          · simp [lt_trans ha hb]
          · subst hb; simp [ha]
          · rw [if_neg (asymm hb), if_neg (ne_of_gt hb)] at h2
            simp at h2
        · subst ha
          rw [if_neg (lt_irrefl r1), if_pos rfl] at h1
          rcases lt_trichotomy r1 r3 with hb | hb | hb
          · simp [hb]
          · subst hb
            rw [if_neg (lt_irrefl r1), if_pos rfl] at h2 ⊢
            exact strLe_trans s1 s2 s3 h1 h2
          · rw [if_neg (asymm hb), if_neg (ne_of_gt hb)] at h2
            simp at h2
        · rw [if_neg (asymm ha), if_neg (ne_of_gt ha)] at h1
          simp at h1

theorem keyLE_total (k1 k2 : SortKey) : keyLE k1 k2 = true ∨ keyLE k2 k1 = true := by
  cases k1 with
  | knum v =>
    cases k2 with
    | knum w =>
      simp only [keyLE, decide_eq_true_eq]
      exact Nat.le_total v w
    | kstr r s => left; simp [keyLE]
  | kstr r1 s1 =>
    cases k2 with
    | knum w => right; simp [keyLE]
    | kstr r2 s2 =>
      rcases lt_trichotomy r1 r2 with h | h | h
      · left; simp [keyLE, h]
      · subst h
        rcases strLe_total s1 s2 with h2 | h2
        · left; simp [keyLE, h2]
        · right; simp [keyLE, h2]
      · right; simp [keyLE, h]

/-! ### Generic lemmas for the stable insertion sort -/

theorem insertLe_perm (le : α → α → Bool) (a : α) (l : List α) :
    (insertLe le a l).Perm (a :: l) := by
  induction l with
  | nil => exact List.Perm.refl _
  | cons b bs ih =>
    by_cases h : le a b
    · simp [insertLe, h]
    · simp only [insertLe, h, if_false, Bool.false_eq_true]
      exact (ih.cons b).trans (List.Perm.swap a b bs)

theorem sortLe_perm (le : α → α → Bool) (l : List α) : (sortLe le l).Perm l := by
  induction l with
  | nil => exact List.Perm.refl _
  | cons a as ih => exact (insertLe_perm le a (sortLe le as)).trans (ih.cons a)

theorem insertLe_pairwise (le : α → α → Bool)
    (htr : ∀ a b c, le a b = true → le b c = true → le a c = true)
    (htot : ∀ a b, le a b = true ∨ le b a = true) (a : α) (l : List α)
    (h : l.Pairwise (fun x y => le x y = true)) :
    (insertLe le a l).Pairwise (fun x y => le x y = true) := by
  induction l with
  | nil => simp [insertLe]
  | cons b bs ih =>
    rw [List.pairwise_cons] at h
    obtain ⟨hb, hbs⟩ := h
    by_cases hab : le a b
    · simp only [insertLe, hab, if_true]
      rw [List.pairwise_cons]
      refine ⟨?_, List.pairwise_cons.mpr ⟨hb, hbs⟩⟩
      intro x hx
      rcases List.mem_cons.mp hx with rfl | hx'
      · exact hab
      · exact htr a b x hab (hb x hx')
    · simp only [insertLe, hab, if_false, Bool.false_eq_true]
      rw [List.pairwise_cons]
      refine ⟨?_, ih hbs⟩
      intro x hx
      have hmem : x ∈ a :: bs := (insertLe_perm le a bs).mem_iff.mp hx
      rcases List.mem_cons.mp hmem with h1 | h1
      · subst h1
        rcases htot x b with h' | h'
        · exact absurd h' hab
        · exact h'
      · exact hb x h1

theorem sortLe_pairwise (le : α → α → Bool)
    (htr : ∀ a b c, le a b = true → le b c = true → le a c = true)
    (htot : ∀ a b, le a b = true ∨ le b a = true) (l : List α) :
    (sortLe le l).Pairwise (fun x y => le x y = true) := by
  induction l with
  | nil => simp [sortLe]
  | cons a as ih => exact insertLe_pairwise le htr htot a _ ih

/-! ### Test fixtures: concrete worlds the claim theorems evaluate -/

/-- A one-entity world in a converged state: the entity's folder name and
history agree, the server holds its source document, and nothing else is
present.  Used to replay two full runs back to back. -/
def idemWorld : World :=
  { table := [⟨"X1", "L1", "S1", "", "L1_S1", ""⟩],
    tree := [],
    server := [⟨"(X1).pdf", "C1CONTENT", ["P1"], true⟩],
    linewise := [],
    master := some ["M1"],
    pageIndex := some [],
    failingWrites := [],
    clock := 1 }

/-- First full run over `idemWorld`. -/
def idemRun1 : RunRes := runPipeline idemWorld

/-- Second full run, with nothing changed on disk or in the table —
only the clock has advanced. -/
def idemRun2 : RunRes := runPipeline { idemRun1.world with clock := 2 }

/-- Claim C1: running the full seven-stage pipeline twice over the same
destination tree with no filesystem or entity-table changes between runs
produces byte-identical merged outputs and leaves every folder's persisted
merge-cache fingerprint and timestamp unchanged.  Evaluation at the failing
input: the second run re-merges the folder (`mergedCount = 1`, not the zero
re-merges the claim requires) and rewrites the cache entry with the new
clock value, because stage 5 deletes the `.merge_cache.json` sidecar (it
matches none of the stage-5 keep rules), so stage 6 finds no cache to
compare against.  The merged output itself is byte-identical and the
fingerprint value is unchanged — only the zero-work/unchanged-timestamp
part fails, contradicting the claim and the source's own caching design. -/
theorem C1_second_run_remerges_and_restamps :
    idemRun2.mergedCount = 1 ∧
    idemRun2.aborted = false ∧
    (treeFolder idemRun1.world.tree "L1_S1").map (fun f => f.cache) =
      some (some ⟨"C1CONTENT", 1⟩) ∧
    (treeFolder idemRun2.world.tree "L1_S1").map (fun f => f.cache) =
      some (some ⟨"C1CONTENT", 2⟩) ∧
    (treeFolder idemRun2.world.tree "L1_S1").map (fun f => lookupFile f.files "L1_S1.pdf") =
      (treeFolder idemRun1.world.tree "L1_S1").map (fun f => lookupFile f.files "L1_S1.pdf") := by
  decide

/-- The same single-entity world with the master source document missing
(or unopenable). -/
def missingMasterWorld : World :=
  { table := [⟨"X1", "L1", "S1", "", "L1_S1", ""⟩],
    tree := [],
    server := [⟨"(X1).pdf", "C1CONTENT", ["P1"], true⟩],
    linewise := [],
    master := none,
    pageIndex := some [],
    failingWrites := [],
    clock := 1 }

/-- Claim C6 counterexample: with the master source document missing the
run does not abort — it completes all stages (`aborted = false`) — and
stage 1 has already mutated the destination tree (the entity folder was
created and its source document copied in), contradicting both the
"aborts as fatal before stage 1" and the "no stage performs any mutation"
parts of the claim.  The missing master is only detected inside stage 3,
which logs and returns. -/
theorem C6_missing_master_run_completes_and_mutates :
    (runPipeline missingMasterWorld).aborted = false ∧
    missingMasterWorld.tree = [] ∧
    (treeFolder (runPipeline missingMasterWorld).world.tree "L1_S1").map
      (fun f => hasFile f.files "(X1).pdf") = some true := by
  decide

/-- Two-entity world in which writing the first folder's merged output
raises, plus an orphaned empty folder that stage 7 would remove. -/
def failingSaveWorld : World :=
  { table := [⟨"X1", "A", "1", "", "A_1", ""⟩, ⟨"X2", "B", "2", "", "B_2", ""⟩],
    tree := [⟨"A_1", [⟨"(X1).pdf", "CA", ["PA"], true⟩], none, none⟩,
             ⟨"B_2", [⟨"(X2).pdf", "CB", ["PB"], true⟩], none, none⟩,
             ⟨"ZZZ", [], none, none⟩],
    server := [⟨"(X1).pdf", "CA", ["PA"], true⟩, ⟨"(X2).pdf", "CB", ["PB"], true⟩],
    linewise := [],
    master := none,
    pageIndex := none,
    failingWrites := ["A_1/A_1.pdf"],
    clock := 1 }

/-- Claim C5 counterexample: a recoverable write failure (saving folder
`A_1`'s merged output in stage 6) is not caught at the unit boundary — the
exception escapes the stage (`aborted = true`), folder `B_2` is never
merged (no output file, no cache entry), and stage 7 never runs (the
orphaned empty folder `ZZZ` survives).  This contradicts "all remaining
units in that stage and all subsequent stages still run". -/
theorem C5_save_failure_aborts_remaining_units :
    (runPipeline failingSaveWorld).aborted = true ∧
    (treeFolder (runPipeline failingSaveWorld).world.tree "B_2").map
      (fun f => (hasFile f.files "B_2.pdf", f.cache)) = some (false, none) ∧
    treeHas (runPipeline failingSaveWorld).world.tree "ZZZ" = true ∧
    (runPipeline failingSaveWorld).mergedCount = 0 := by
  decide

/-- Claim C7 counterexample: backup files are ordered by their lower-cased
name with `_fri.pdf` replaced by `.pdf`, not lexicographically by filename:
the code puts `a_FRI.pdf` before `a5_FRI.pdf` although `a5_FRI.pdf` is the
lexicographically smaller filename (under both original and lower-cased
comparison).  Likewise main source files are ordered by lower-cased name:
`a.pdf` is placed before `B.pdf` although `B.pdf` is the smaller
filename. -/
theorem C7_groups_not_sorted_by_filename :
    sortPdfFiles [⟨"a5_FRI.pdf", "x", [], true⟩, ⟨"a_FRI.pdf", "y", [], true⟩] =
      [⟨"a_FRI.pdf", "y", [], true⟩, ⟨"a5_FRI.pdf", "x", [], true⟩] ∧
    strLt "a5_FRI.pdf" "a_FRI.pdf" = true ∧
    strLt "a5_fri.pdf" "a_fri.pdf" = true ∧
    sortPdfFiles [⟨"B.pdf", "x", [], true⟩, ⟨"a.pdf", "y", [], true⟩] =
      [⟨"a.pdf", "y", [], true⟩, ⟨"B.pdf", "x", [], true⟩] ∧
    strLt "B.pdf" "a.pdf" = true := by
  decide

/-- Claim C3 counterexample: two files with distinct content but equal byte
size copied to the same destination name — the second `safe_copy` returns
the destination path without writing anything (`name_dup1` is never
created; the directory is unchanged), because `safe_copy` treats an
existing same-size file as already copied. -/
theorem C3_equal_size_distinct_content_not_duplicated :
    safe_copy [] ⟨"src1", "ab", [], true⟩ "d.pdf" =
      ([⟨"d.pdf", "ab", [], true⟩], "d.pdf") ∧
    safe_copy [⟨"d.pdf", "ab", [], true⟩] ⟨"src2", "cd", [], true⟩ "d.pdf" =
      ([⟨"d.pdf", "ab", [], true⟩], "d.pdf") ∧
    ("ab" : String) ≠ "cd" := by
  decide

/-- One-row table and one folder exercising the stage-5 rules. -/
def c4Table : List Row := [⟨"X9", "F", "1", "F_1", "F_1", ""⟩]

/-- A folder holding its merged output and an unreferenced junk file. -/
def c4Folder : MFolder :=
  ⟨"F_1", [⟨"F_1.pdf", "m", ["PM"], true⟩, ⟨"junk.pdf", "j", ["PJ"], true⟩], none, none⟩

/-- Claim C4 counterexample: the merged output `F_1.pdf` is not referenced
by any candidate table (its name contains no ISO), is not numeric-named and
is not a backup copy, so under the claim it would be removed — but stage 5
keeps it (by the explicit merged-output exemption) while removing
`junk.pdf`. -/
theorem C4_unreferenced_merged_output_kept :
    cleanup_redundancy c4Table [c4Folder] =
      [⟨"F_1", [⟨"F_1.pdf", "m", ["PM"], true⟩], none, none⟩] ∧
    strContains (pyLower "F_1.pdf") (pyLower "X9") = false ∧
    isNumericPdfName "F_1.pdf" = false ∧
    strEndsWith (pyLower "F_1.pdf") "_fri.pdf" = false := by
  decide

/-! ### Lookup helper lemmas -/

theorem contains_iff_mem (l : List String) (x : String) :
    l.contains x = true ↔ x ∈ l := by
  simp [List.contains_iff_exists_mem_beq]

theorem lookupFile_append_fresh (files : List WFile) (f : WFile)
    (h : hasFile files f.name = false) :
    lookupFile (files ++ [f]) f.name = some f := by
  unfold lookupFile
  rw [List.find?_append]
  unfold hasFile lookupFile at h
  cases hf : List.find? (fun g => g.name == f.name) files with
  | none => simp [List.find?]
  | some g => rw [hf] at h; simp at h

theorem lookupFile_append_left (files rest : List WFile) (n : String) (g : WFile)
    (h : lookupFile files n = some g) :
    lookupFile (files ++ rest) n = some g := by
  unfold lookupFile at h ⊢
  rw [List.find?_append, h]
  rfl

theorem hasFile_append (files rest : List WFile) (n : String) :
    hasFile (files ++ rest) n = (hasFile files n || hasFile rest n) := by
  unfold hasFile lookupFile
  rw [List.find?_append]
  cases List.find? (fun g => g.name == n) files <;> simp [Option.or]

theorem lookupFile_map_replace (files : List WFile) (f : WFile)
    (h : hasFile files f.name = true) :
    lookupFile (files.map (fun g => if g.name == f.name then f else g)) f.name =
      some f := by
  induction files with
  | nil => simp [hasFile, lookupFile] at h
  | cons g gs ih =>
    by_cases hg : g.name == f.name
    · simp [lookupFile, List.find?, hg]
    · have h' : hasFile gs f.name = true := by
        unfold hasFile lookupFile at h ⊢
        rw [List.find?_cons_of_neg _ (by simpa using hg)] at h
        exact h
      have := ih h'
      unfold lookupFile at this ⊢
      simp only [List.map_cons]
      rw [List.find?_cons_of_neg, this]
      simp [hg]

theorem lookupFile_putFile (files : List WFile) (f : WFile) :
    lookupFile (putFile files f) f.name = some f := by
  unfold putFile
  by_cases h : hasFile files f.name
  · simp only [h, if_true]
    exact lookupFile_map_replace files f h
  · simp only [h, Bool.false_eq_true, if_false]
    exact lookupFile_append_fresh files f (by simpa using h)

/-- Claim C10: for a folder with a nonempty candidate set whose cache
check misses, if the deduplication pass yields zero pages (for example
every candidate fails to open), stage 6 writes no merged output and
persists no cache entry — the folder is returned completely unchanged, so
the next run takes exactly the same path and re-attempts the merge. -/
theorem C10_zero_pages_no_output_no_cache (now : Nat) (fw : List String)
    (folder : MFolder)
    (hne : candidateFiles folder ≠ [])
    (hmiss : cacheMatches folder (folderSourceHash (candidateFiles folder)) = false)
    (hempty : mergeLoop (sortPdfFiles (candidateFiles folder)) = []) :
    combineFolder now fw folder = ⟨folder, false, false⟩ := by
  have h1 : (candidateFiles folder).isEmpty = false := by
    cases hc : candidateFiles folder with
    | nil => exact absurd hc hne
    | cons a l => simp
  unfold combineFolder
  simp [h1, hmiss, hempty]

/-- A folder whose only candidate file cannot be opened by the PDF
library. -/
def c10Folder : MFolder := ⟨"G_1", [⟨"(X5).pdf", "gc", ["PZ"], false⟩], none, none⟩

/-- Witness for C10 at a concrete folder whose single candidate fails to
open: the hypotheses hold by evaluation and the merge writes nothing. -/
theorem C10_zero_pages_witness :
    candidateFiles c10Folder ≠ [] ∧
    cacheMatches c10Folder (folderSourceHash (candidateFiles c10Folder)) = false ∧
    mergeLoop (sortPdfFiles (candidateFiles c10Folder)) = [] ∧
    combineFolder 3 ["G_1/G_1.pdf"] c10Folder = ⟨c10Folder, false, false⟩ :=
  ⟨by decide, by decide, by decide,
   C10_zero_pages_no_output_no_cache 3 ["G_1/G_1.pdf"] c10Folder (by decide) (by decide)
     (by decide)⟩

/-- Claim C8: a merge-cache entry is created or overwritten only
immediately after the merged output was successfully written — whenever
the cache entry changes, the folder was merged without failure, the entry
carries the fresh fingerprint and current time, and the merged output file
is present; and if writing the merged output fails, the folder (including
its cache sidecar) is left completely unchanged, so a later run without the
write fault performs the merge again. -/
theorem C8_cache_entry_only_after_successful_write (now now2 : Nat)
    (fw : List String) (folder : MFolder) :
    ((combineFolder now fw folder).folder.cache ≠ folder.cache →
      (combineFolder now fw folder).merged = true ∧
      (combineFolder now fw folder).failed = false ∧
      (combineFolder now fw folder).folder.cache =
        some ⟨folderSourceHash (candidateFiles folder), now⟩ ∧
      lookupFile (combineFolder now fw folder).folder.files (folder.name ++ ".pdf") =
        some (mergedOutputFile folder)) ∧
    ((combineFolder now fw folder).failed = true →
      (combineFolder now fw folder).folder = folder ∧
      (combineFolder now2 [] folder).merged = true) := by
  by_cases h1 : (candidateFiles folder).isEmpty
  · have he : combineFolder now fw folder = ⟨folder, false, false⟩ := by
      unfold combineFolder; simp [h1]
    rw [he]; simp
  · by_cases h2 : cacheMatches folder (folderSourceHash (candidateFiles folder))
    · have he : combineFolder now fw folder = ⟨folder, false, false⟩ := by
        unfold combineFolder; simp [h1, h2]
      rw [he]; simp
    · by_cases h3 : (mergeLoop (sortPdfFiles (candidateFiles folder))).length > 0
      · by_cases h4 : (folder.name ++ "/" ++ folder.name ++ ".pdf") ∈ fw
        · have he : combineFolder now fw folder = ⟨folder, false, true⟩ := by
            unfold combineFolder; simp [h1, h2, h3, h4]
          rw [he]
          constructor
          · intro hc
            exact absurd rfl hc
          · intro _
            refine ⟨rfl, ?_⟩
            have he2 : combineFolder now2 [] folder =
                ⟨{ folder with
                    files := putFile folder.files (mergedOutputFile folder),
                    cache := some ⟨folderSourceHash (candidateFiles folder), now2⟩ },
                  true, false⟩ := by
              unfold combineFolder; simp [h1, h2, h3]
            rw [he2]
        · have he : combineFolder now fw folder =
              ⟨{ folder with
                  files := putFile folder.files (mergedOutputFile folder),
                  cache := some ⟨folderSourceHash (candidateFiles folder), now⟩ },
                true, false⟩ := by
            unfold combineFolder; simp [h1, h2, h3, h4]
          rw [he]
          constructor
          · intro _
            refine ⟨rfl, rfl, rfl, ?_⟩
            exact lookupFile_putFile folder.files (mergedOutputFile folder)
          · intro hf
            simp at hf
      · have he : combineFolder now fw folder = ⟨folder, false, false⟩ := by
          unfold combineFolder; simp [h1, h2, h3]
        rw [he]; simp

/-- A folder with one readable candidate, used to exercise the failing
branch of the cache-discipline theorem. -/
def c8Folder : MFolder := ⟨"F_8", [⟨"(X8).pdf", "h8", ["P8"], true⟩], none, none⟩

/-- Witness for C8 at a concrete folder whose output write fails: the
folder (and its absent cache entry) is unchanged and a later run without
the fault merges. -/
theorem C8_cache_entry_witness :
    (combineFolder 5 ["F_8/F_8.pdf"] c8Folder).failed = true ∧
    (combineFolder 5 ["F_8/F_8.pdf"] c8Folder).folder = c8Folder ∧
    (combineFolder 7 [] c8Folder).merged = true :=
  ⟨by decide,
   ((C8_cache_entry_only_after_successful_write 5 7 ["F_8/F_8.pdf"] c8Folder).2
     (by decide)).1,
   ((C8_cache_entry_only_after_successful_write 5 7 ["F_8/F_8.pdf"] c8Folder).2
     (by decide)).2⟩

/-! ### Claim C2: first-occurrence page deduplication -/

/-- The stream of pages a folder's merge pass actually iterates: the pages
of the openable candidate files, in candidate order then document order. -/
def pagesStream (files : List WFile) : List String :=
  ((files.filter (fun f => f.readable)).map (fun f => f.pages)).flatten

/-- Specification-side selection: walking the page stream, a page is kept
exactly when its fingerprint has not been seen earlier in the walk; a kept
page contributes its fingerprint to the seen set. -/
def firstOccSelect (seen : List String) : List String → List String
  | [] => []
  | p :: ps =>
    if seen.contains (page_hash p) then firstOccSelect seen ps
    else p :: firstOccSelect (seen ++ [page_hash p]) ps

theorem foldl_dedupInsert_eq (ps : List String) : ∀ seen out,
    ps.foldl dedupInsert (seen, out) =
      (seen ++ (firstOccSelect seen ps).map page_hash,
       out ++ firstOccSelect seen ps) := by
  induction ps with
  | nil => intro seen out; simp [firstOccSelect]
  | cons p ps ih =>
    intro seen out
    by_cases h : seen.contains (page_hash p)
    · have hm : page_hash p ∈ seen := (contains_iff_mem _ _).mp h
      have hstep : dedupInsert (seen, out) p = (seen, out) := by
        simp [dedupInsert, hm]
      simp only [List.foldl_cons, hstep, firstOccSelect, h, if_pos]
      exact ih seen out
    · have hm : page_hash p ∉ seen := fun hx => h ((contains_iff_mem _ _).mpr hx)
      have hstep : dedupInsert (seen, out) p =
          (seen ++ [page_hash p], out ++ [p]) := by
        simp [dedupInsert, hm]
      simp only [List.foldl_cons, hstep, firstOccSelect, h, Bool.false_eq_true,
        if_false]
      rw [ih]
      simp [List.append_assoc]

theorem foldl_mergeFilePages (files : List WFile) : ∀ acc,
    files.foldl mergeFilePages acc = (pagesStream files).foldl dedupInsert acc := by
  induction files with
  | nil => intro acc; simp [pagesStream]
  | cons f fs ih =>
    intro acc
    by_cases h : f.readable
    · have hstream : pagesStream (f :: fs) = f.pages ++ pagesStream fs := by
        simp [pagesStream, List.filter_cons, h]
      simp only [List.foldl_cons, mergeFilePages, h, if_pos]
      rw [ih, hstream, List.foldl_append]
    · have hstream : pagesStream (f :: fs) = pagesStream fs := by
        simp [pagesStream, List.filter_cons, h]
      simp only [List.foldl_cons, mergeFilePages, h, Bool.false_eq_true, if_false]
      rw [ih, hstream]

theorem firstOccSelect_sublist (ps : List String) : ∀ seen,
    (firstOccSelect seen ps).Sublist ps := by
  induction ps with
  | nil => intro seen; simp [firstOccSelect]
  | cons p ps ih =>
    intro seen
    by_cases h : seen.contains (page_hash p)
    · simp only [firstOccSelect, h, if_pos]
      exact (ih seen).cons p
    · simp only [firstOccSelect, h, Bool.false_eq_true, if_false]
      exact (ih (seen ++ [page_hash p])).cons₂ p

theorem firstOccSelect_map_hash (ps : List String) : ∀ seen1 seen2,
    (∀ x, x ∈ seen1 ↔ x ∈ seen2) →
    (firstOccSelect seen1 ps).map page_hash = dedupAux seen2 (ps.map page_hash) := by
  induction ps with
  | nil => intro seen1 seen2 _; simp [firstOccSelect, dedupAux]
  | cons p ps ih =>
    intro seen1 seen2 hequiv
    have hc : seen1.contains (page_hash p) = seen2.contains (page_hash p) := by
      by_cases h : seen1.contains (page_hash p)
      · rw [h]
        exact ((contains_iff_mem _ _).mpr
          ((hequiv _).mp ((contains_iff_mem _ _).mp h))).symm
      · have h2 : ¬ seen2.contains (page_hash p) = true := by
          intro hh
          exact h ((contains_iff_mem _ _).mpr
            ((hequiv _).mpr ((contains_iff_mem _ _).mp hh)))
        simp only [Bool.not_eq_true] at h h2
        rw [h, h2]
    by_cases h : seen1.contains (page_hash p)
    · simp only [firstOccSelect, h, if_pos, List.map_cons, dedupAux, ← hc]
      exact ih seen1 seen2 hequiv
    · simp only [firstOccSelect, h, Bool.false_eq_true, if_false, List.map_cons,
        dedupAux, ← hc]
      congr 1
      apply ih
      intro x
      simp only [List.mem_append, List.mem_cons, List.not_mem_nil, or_false]
      rw [hequiv x]
      exact or_comm

theorem dedupAux_nodup_disjoint (l : List String) : ∀ seen,
    (dedupAux seen l).Nodup ∧ ∀ x ∈ dedupAux seen l, x ∉ seen := by
  induction l with
  | nil => intro seen; simp [dedupAux]
  | cons a as ih =>
    intro seen
    by_cases h : seen.contains a
    · simp only [dedupAux, h, if_pos]
      exact ih seen
    · simp only [dedupAux, h, Bool.false_eq_true, if_false]
      obtain ⟨hnd, hdisj⟩ := ih (a :: seen)
      refine ⟨?_, ?_⟩
      · rw [List.nodup_cons]
        refine ⟨?_, hnd⟩
        intro hmem
        exact (hdisj a hmem) (List.mem_cons_self a seen)
      · intro x hx
        rcases List.mem_cons.mp hx with h1 | h1
        · subst h1
          intro hxs
          exact absurd ((contains_iff_mem seen x).mpr hxs) (by simpa using h)
        · intro hxs
          exact (hdisj x h1) (List.mem_cons_of_mem a hxs)

/-- Claim C2: within one folder's merge pass no two pages included in the
merged output share a page-content fingerprint.  The accumulated page list
equals the specification-side first-occurrence selection over the iterated
page stream (a page is added exactly at the first occurrence of its
fingerprint, later pages with a seen fingerprint — from the same or a
different candidate file — are skipped), it is a subsequence of that
stream, its fingerprint sequence is the first-occurrence deduplication of
the stream's fingerprint sequence, and that sequence has no duplicates. -/
theorem C2_merge_dedup_first_occurrence (files : List WFile) :
    mergeLoop files = firstOccSelect [] (pagesStream files) ∧
    (mergeLoop files).Sublist (pagesStream files) ∧
    (mergeLoop files).map page_hash =
      dedupKeepFirst ((pagesStream files).map page_hash) ∧
    ((mergeLoop files).map page_hash).Nodup := by
  have h1 : mergeLoop files = firstOccSelect [] (pagesStream files) := by
    unfold mergeLoop
    rw [foldl_mergeFilePages, foldl_dedupInsert_eq]
    simp
  have h3 : (mergeLoop files).map page_hash =
      dedupKeepFirst ((pagesStream files).map page_hash) := by
    rw [h1]
    exact firstOccSelect_map_hash _ [] [] (fun x => Iff.rfl)
  refine ⟨h1, ?_, h3, ?_⟩
  · rw [h1]; exact firstOccSelect_sublist _ _
  · rw [h3]
    exact (dedupAux_nodup_disjoint _ []).1

/-! ### Claims C5 and C6 (amended statements) -/

theorem combineFolder_no_fault (now : Nat) (folder : MFolder) :
    (combineFolder now [] folder).failed = false := by
  by_cases h1 : (candidateFiles folder).isEmpty
  · unfold combineFolder; simp [h1]
  · by_cases h2 : cacheMatches folder (folderSourceHash (candidateFiles folder))
    · unfold combineFolder; simp [h1, h2]
    · by_cases h3 : (mergeLoop (sortPdfFiles (candidateFiles folder))).length > 0
      · unfold combineFolder; simp [h1, h2, h3]
      · unfold combineFolder; simp [h1, h2, h3]

/-- Claim C5 (amended): the failures the source wraps at unit level are
isolated — with no write faults, stage 6 never raises and processes every
folder independently; and a candidate file that fails to open contributes
nothing while the remaining files of the same pass are processed exactly
as if the bad file were absent.  (The unamended claim fails because a
merged-output write fault escapes the stage; see the counterexample.) -/
theorem C5_wrapped_unit_failures_isolated :
    (∀ (now : Nat) (tree : List MFolder),
      (combineTree now [] tree).failed = false ∧
      (combineTree now [] tree).tree =
        tree.map (fun f => (combineFolder now [] f).folder)) ∧
    (∀ (xs ys : List WFile) (bad : WFile), bad.readable = false →
      mergeLoop (xs ++ bad :: ys) = mergeLoop (xs ++ ys)) := by
  constructor
  · intro now tree
    induction tree with
    | nil => exact ⟨rfl, rfl⟩
    | cons f fs ih =>
      have hnf := combineFolder_no_fault now f
      simp only [combineTree, hnf, Bool.false_eq_true, if_false, List.map_cons]
      exact ⟨ih.1, by rw [ih.2]⟩
  · intro xs ys bad hbad
    unfold mergeLoop
    rw [List.foldl_append, List.foldl_append, List.foldl_cons]
    have hskip : mergeFilePages (xs.foldl mergeFilePages ([], [])) bad =
        xs.foldl mergeFilePages ([], []) := by
      simp [mergeFilePages, hbad]
    rw [hskip]

/-- An openable candidate file used by the C5 witness. -/
def c5ReadableFile : WFile := ⟨"v.pdf", "v", ["PV"], true⟩

/-- An unopenable candidate file used by the C5 witness. -/
def c5BadFile : WFile := ⟨"u.pdf", "u", ["PU"], false⟩

/-- Witness for the amended C5: at a concrete pass, the unopenable file is
skipped and the rest processed; at a concrete tree with no write faults,
stage 6 does not raise. -/
theorem C5_wrapped_unit_failures_isolated_witness :
    c5BadFile.readable = false ∧
    mergeLoop ([] ++ c5BadFile :: [c5ReadableFile]) = mergeLoop ([] ++ [c5ReadableFile]) ∧
    (combineTree 4 [] [⟨"W_1", [c5ReadableFile], none, none⟩]).failed = false :=
  ⟨by decide,
   C5_wrapped_unit_failures_isolated.2 [] [c5ReadableFile] c5BadFile (by decide),
   (C5_wrapped_unit_failures_isolated.1 4 [⟨"W_1", [c5ReadableFile], none, none⟩]).1⟩

/-- Claim C6 (amended): a missing or unopenable master source document does
not abort the run — stage 3 performs no extraction at all (the tree passes
through untouched) and the whole run behaves exactly like the pipeline with
stage 3 removed, every other stage included. -/
theorem C6_missing_master_only_skips_extraction :
    (∀ (pageIdx : Option (List (String × String))) (tree : List MFolder),
      extract_pages none pageIdx tree = tree) ∧
    (∀ w : World, w.master = none → runPipeline w = runPipelineNoP3 w) := by
  constructor
  · intro pageIdx tree; rfl
  · intro w h
    unfold runPipeline runPipelineNoP3
    rw [h]
    rfl

/-- A world whose master document is missing, for the C6 witness. -/
def c6SkipWorld : World :=
  { table := [], tree := [⟨"Q_1", [], none, none⟩], server := [], linewise := [],
    master := none, pageIndex := none, failingWrites := [], clock := 0 }

/-- Witness for the amended C6 at a concrete world with a missing master
document. -/
theorem C6_missing_master_witness :
    extract_pages none none [⟨"Q_1", [], none, none⟩] = [⟨"Q_1", [], none, none⟩] ∧
    runPipeline c6SkipWorld = runPipelineNoP3 c6SkipWorld :=
  ⟨C6_missing_master_only_skips_extraction.1 none [⟨"Q_1", [], none, none⟩],
   C6_missing_master_only_skips_extraction.2 c6SkipWorld rfl⟩

/-! ### Claim C4 (amended statement) -/

/-- Claim C4 (amended): stage 5 acts folder by folder using the main
entity table's ISO list for the folder; in a folder with at least one ISO
row it keeps exactly the files that are the folder's merged output or
`belong` (name contains a table ISO case-insensitively, or numeric-named,
or backup-marked) and removes every other file, while a folder with no ISO
rows is left untouched. -/
theorem C4_cleanup_removes_exactly_unreferenced (table : List Row)
    (tree : List MFolder) (i : Nat) (folder : MFolder)
    (hi : tree[i]? = some folder) :
    (cleanup_redundancy table tree)[i]? =
      some (cleanupFolder (expectedIsos table folder.name) folder) ∧
    ∀ f : WFile,
      f ∈ (cleanupFolder (expectedIsos table folder.name) folder).files ↔
        (f ∈ folder.files ∧
          (expectedIsos table folder.name = [] ∨
            keepInCleanup (expectedIsos table folder.name) folder.name f.name = true)) := by
  constructor
  · unfold cleanup_redundancy
    rw [List.getElem?_map, hi]
    rfl
  · intro f
    by_cases h : (expectedIsos table folder.name).isEmpty
    · have he : expectedIsos table folder.name = [] := List.isEmpty_iff.mp h
      unfold cleanupFolder
      simp [h, he]
    · have he : ¬ expectedIsos table folder.name = [] := fun hh => h (by simp [hh])
      unfold cleanupFolder
      simp only [h, Bool.false_eq_true, if_false]
      simp [List.mem_filter, he]

/-- Witness for the amended C4 at the concrete one-folder fixture: the
stage result is the per-folder cleanup under the table's ISO list, and the
unreferenced junk file is indeed removed. -/
theorem C4_cleanup_removes_exactly_witness :
    (cleanup_redundancy c4Table [c4Folder])[0]? =
      some (cleanupFolder (expectedIsos c4Table c4Folder.name) c4Folder) ∧
    (⟨"junk.pdf", "j", ["PJ"], true⟩ : WFile) ∉
      (cleanupFolder (expectedIsos c4Table c4Folder.name) c4Folder).files :=
  ⟨(C4_cleanup_removes_exactly_unreferenced c4Table [c4Folder] 0 c4Folder (by decide)).1,
   by decide⟩

/-! ### Claim C3 (amended statement) -/

theorem lookupFile_eq_none (files : List WFile) (n : String)
    (h : hasFile files n = false) : lookupFile files n = none := by
  unfold hasFile at h
  cases hl : lookupFile files n with
  | none => rfl
  | some g => rw [hl] at h; simp at h

theorem hasFile_nil (n : String) : hasFile [] n = false := rfl

theorem hasFile_cons (g : WFile) (gs : List WFile) (n : String) :
    hasFile (g :: gs) n = (g.name == n || hasFile gs n) := by
  unfold hasFile lookupFile
  cases h : (g.name == n) with
  | false => rw [List.find?_cons_of_neg _ (by simp [h])]; simp
  | true => rw [List.find?_cons_of_pos _ (by simp [h])]; simp

theorem strMk_append (xs ys : List Char) :
    String.mk xs ++ String.mk ys = String.mk (xs ++ ys) := rfl

theorem str_append_empty (s : String) : s ++ "" = s := by
  cases s with
  | mk data =>
    show String.mk (data ++ []) = String.mk data
    simp

theorem splitext_append_eq (s : String) : (splitext s).1 ++ (splitext s).2 = s := by
  unfold splitext
  split
  · exact str_append_empty s
  · split
    · dsimp only
      rw [strMk_append, List.take_append_drop]
    · exact str_append_empty s

theorem natToStrAux_len_ge : ∀ (fl n : Nat) (acc : List Char),
    acc.length ≤ (natToStrAux fl n acc).length := by
  intro fl
  induction fl with
  | zero => intro n acc; simp [natToStrAux]
  | succ fl ih =>
    intro n acc
    show acc.length ≤ (natToStrAux (Nat.succ fl) n acc).length
    unfold natToStrAux
    by_cases h : n < 10
    · simp [h]
    · simp only [h, Bool.false_eq_true, if_false]
      calc acc.length ≤ (Char.ofNat (48 + n % 10) :: acc).length := by simp
        _ ≤ _ := ih (n / 10) _

theorem natToStr_len_pos (n : Nat) : 1 ≤ (natToStr n).data.length := by
  show 1 ≤ (natToStrAux (n + 1) n []).length
  unfold natToStrAux
  by_cases h : n < 10
  · simp [h]
  · simp only [h, Bool.false_eq_true, if_false]
    calc 1 = ([Char.ofNat (48 + n % 10)] : List Char).length := by simp
      _ ≤ _ := natToStrAux_len_ge n (n / 10) _

theorem dupName_data (base ext : String) (i : Nat) :
    (dupName base ext i).data =
      base.data ++ ("_dup".data ++ ((natToStr i).data ++ ext.data)) := by
  unfold dupName
  simp [String.data_append]

theorem dupName_ne_base (base ext : String) (i : Nat) :
    base ++ ext ≠ dupName base ext i := by
  intro h
  have hlen := congrArg (fun s : String => s.data.length) h
  simp only [String.data_append, dupName_data, List.length_append] at hlen
  have h4 : ("_dup" : String).data.length = 4 := by decide
  have hpos := natToStr_len_pos i
  omega

theorem dupName_one_ne_two (base ext : String) :
    dupName base ext 1 ≠ dupName base ext 2 := by
  intro h
  have h' := congrArg String.data h
  rw [dupName_data, dupName_data] at h'
  have h1 : (natToStr 1).data = ['1'] := by decide
  have h2 : (natToStr 2).data = ['2'] := by decide
  rw [h1, h2] at h'
  have h'' := List.append_cancel_left h'
  have h''' := List.append_cancel_left h''
  simp at h'''

theorem safeCandidate_step (files : List WFile) (b e cand : String) (i fl : Nat) :
    safeCandidate files b e cand i (fl + 1) =
      if hasFile files cand = true then
        safeCandidate files b e (dupName b e i) (i + 1) fl
      else cand := rfl

theorem safe_copy_notfound (files : List WFile) (src : WFile) (destName : String)
    (h : lookupFile files destName = none) :
    safe_copy files src destName =
      (files ++ [{ src with name := (safeCandidate files (splitext destName).1
          (splitext destName).2 destName 1 (files.length + 1)) }],
       safeCandidate files (splitext destName).1 (splitext destName).2 destName 1
         (files.length + 1)) := by
  unfold safe_copy
  rw [h]

theorem safe_copy_found (files : List WFile) (src g : WFile) (destName : String)
    (h : lookupFile files destName = some g) :
    safe_copy files src destName =
      if src.size == g.size then (files, destName)
      else
        (files ++ [{ src with name := (safeCandidate files (splitext destName).1
            (splitext destName).2 destName 1 (files.length + 1)) }],
         safeCandidate files (splitext destName).1 (splitext destName).2 destName 1
           (files.length + 1)) := by
  unfold safe_copy
  rw [h]

/-- Claim C3 (amended): copying three files of pairwise-distinct byte size
(relative to the first) to the same fresh destination name never overwrites
anything: the first copy lands at the destination name, the second at
`name_dup1`, the third at `name_dup2`, each name the first unused candidate
for the directory's current contents, and every pre-existing file survives
unchanged (the results are pure appends).  The size hypotheses are forced
by the counterexample: an equal-size distinct-content copy is skipped
entirely rather than written to `name_dup1`. -/
theorem C3_safe_copy_collision_chain (fs : List WFile) (f1 f2 f3 : WFile)
    (d base ext : String) (hsp : splitext d = (base, ext))
    (h0 : hasFile fs d = false)
    (h1 : hasFile fs (dupName base ext 1) = false)
    (h2 : hasFile fs (dupName base ext 2) = false)
    (hs2 : ¬ f2.size = f1.size) (hs3 : ¬ f3.size = f1.size) :
    safe_copy fs f1 d = (fs ++ [{ f1 with name := d }], d) ∧
    safe_copy (fs ++ [{ f1 with name := d }]) f2 d =
      (fs ++ [{ f1 with name := d }, { f2 with name := dupName base ext 1 }],
        dupName base ext 1) ∧
    safe_copy (fs ++ [{ f1 with name := d }, { f2 with name := dupName base ext 1 }]) f3 d =
      (fs ++ [{ f1 with name := d }, { f2 with name := dupName base ext 1 },
              { f3 with name := dupName base ext 2 }],
        dupName base ext 2) := by
  have hde : d = base ++ ext := by
    have hs := splitext_append_eq d
    rw [hsp] at hs
    exact hs.symm
  have hd1 : d ≠ dupName base ext 1 := by rw [hde]; exact dupName_ne_base base ext 1
  have hd2 : d ≠ dupName base ext 2 := by rw [hde]; exact dupName_ne_base base ext 2
  have h12 : dupName base ext 1 ≠ dupName base ext 2 := dupName_one_ne_two base ext
  have hcand1 : safeCandidate fs base ext d 1 (fs.length + 1) = d := by
    rw [safeCandidate_step, h0]
    simp
  have hhd2 : hasFile (fs ++ [{ f1 with name := d }]) d = true := by
    rw [hasFile_append, hasFile_cons]
    simp
  have hh1 : hasFile (fs ++ [{ f1 with name := d }]) (dupName base ext 1) = false := by
    rw [hasFile_append, hasFile_cons, hasFile_nil]
    simp [h1, hd1]
  have hcand2 : safeCandidate (fs ++ [{ f1 with name := d }]) base ext d 1
      ((fs ++ [{ f1 with name := d }]).length + 1) = dupName base ext 1 := by
    rw [safeCandidate_step, hhd2, if_pos rfl]
    have hlen : (fs ++ [{ f1 with name := d }]).length = fs.length + 1 := by simp
    rw [hlen, safeCandidate_step, hh1]
    simp
  have hhd3 : hasFile
      (fs ++ [{ f1 with name := d }, { f2 with name := dupName base ext 1 }]) d = true := by
    rw [hasFile_append, hasFile_cons]
    simp
  have hh31 : hasFile
      (fs ++ [{ f1 with name := d }, { f2 with name := dupName base ext 1 }])
      (dupName base ext 1) = true := by
    rw [hasFile_append, hasFile_cons, hasFile_cons]
    simp
  have hh32 : hasFile
      (fs ++ [{ f1 with name := d }, { f2 with name := dupName base ext 1 }])
      (dupName base ext 2) = false := by
    rw [hasFile_append, hasFile_cons, hasFile_cons, hasFile_nil]
    simp [h2, hd2, h12]
  have hcand3 : safeCandidate
      (fs ++ [{ f1 with name := d }, { f2 with name := dupName base ext 1 }]) base ext d 1
      ((fs ++ [{ f1 with name := d }, { f2 with name := dupName base ext 1 }]).length + 1) =
      dupName base ext 2 := by
    rw [safeCandidate_step, hhd3, if_pos rfl]
    have hlen : (fs ++ [{ f1 with name := d }, { f2 with name := dupName base ext 1 }]).length =
        fs.length + 1 + 1 := by simp
    rw [hlen, safeCandidate_step, hh31, if_pos rfl, safeCandidate_step, hh32]
    simp
  refine ⟨?_, ?_, ?_⟩
  · rw [safe_copy_notfound fs f1 d (lookupFile_eq_none fs d h0), hsp]
    dsimp only
    rw [hcand1]
  · have hfresh : lookupFile (fs ++ [{ f1 with name := d }]) d =
        some { f1 with name := d } :=
      lookupFile_append_fresh fs { f1 with name := d } h0
    have hB := safe_copy_found (fs ++ [{ f1 with name := d }]) f2 { f1 with name := d }
      d hfresh
    rw [hB, hsp]
    dsimp only
    have hsz : (f2.size == ({ f1 with name := d } : WFile).size) = false := by
      simp only [beq_eq_false_iff_ne]
      exact hs2
    rw [hsz, if_neg Bool.false_ne_true, hcand2]
    simp
  · have hlook : lookupFile
        (fs ++ [{ f1 with name := d }, { f2 with name := dupName base ext 1 }]) d =
        some { f1 with name := d } := by
      rw [show (fs ++ [{ f1 with name := d }, { f2 with name := dupName base ext 1 }]) =
          ((fs ++ [{ f1 with name := d }]) ++ [{ f2 with name := dupName base ext 1 }]) by
        simp]
      exact lookupFile_append_left _ _ _ _
        (lookupFile_append_fresh fs { f1 with name := d } h0)
    have hC := safe_copy_found
      (fs ++ [{ f1 with name := d }, { f2 with name := dupName base ext 1 }]) f3
      { f1 with name := d } d hlook
    rw [hC, hsp]
    dsimp only
    have hsz : (f3.size == ({ f1 with name := d } : WFile).size) = false := by
      simp only [beq_eq_false_iff_ne]
      exact hs3
    rw [hsz, if_neg Bool.false_ne_true, hcand3]
    simp

/-- Witness for the amended C3: three concrete distinct-size files copied
to `d.pdf` land at `d.pdf`, `d_dup1.pdf`, `d_dup2.pdf` with nothing
overwritten. -/
theorem C3_safe_copy_collision_chain_witness :
    safe_copy [] ⟨"s1", "a", [], true⟩ "d.pdf" = ([⟨"d.pdf", "a", [], true⟩], "d.pdf") ∧
    safe_copy [⟨"d.pdf", "a", [], true⟩] ⟨"s2", "bb", [], true⟩ "d.pdf" =
      ([⟨"d.pdf", "a", [], true⟩, ⟨"d_dup1.pdf", "bb", [], true⟩], "d_dup1.pdf") ∧
    safe_copy [⟨"d.pdf", "a", [], true⟩, ⟨"d_dup1.pdf", "bb", [], true⟩]
        ⟨"s3", "ccc", [], true⟩ "d.pdf" =
      ([⟨"d.pdf", "a", [], true⟩, ⟨"d_dup1.pdf", "bb", [], true⟩,
        ⟨"d_dup2.pdf", "ccc", [], true⟩], "d_dup2.pdf") := by
  have h := C3_safe_copy_collision_chain [] ⟨"s1", "a", [], true⟩ ⟨"s2", "bb", [], true⟩
    ⟨"s3", "ccc", [], true⟩ "d.pdf" "d" ".pdf" (by decide) (by decide) (by decide)
    (by decide) (by decide) (by decide)
  have e1 : dupName "d" ".pdf" 1 = "d_dup1.pdf" := by decide
  have e2 : dupName "d" ".pdf" 2 = "d_dup2.pdf" := by decide
  rw [e1, e2] at h
  exact h

/-! ### Claim C7 (amended statement) -/

/-- Claim-side classification: a numeric-named extracted-range file
(lower-cased base name is all digits). -/
def isNumericNamed (n : String) : Bool := isDigits (splitext (pyLower n)).1

/-- Claim-side classification: a backup file (lower-cased name ends in
`_fri.pdf`). -/
def isFriNamed (n : String) : Bool := strEndsWith (pyLower n) "_fri.pdf"

/-- Numeric value of a numeric-named file. -/
def numericValue (n : String) : Nat := digitsToNat (splitext (pyLower n)).1.data

/-- The string a backup file is ordered by: its lower-cased name with
`_fri.pdf` replaced by `.pdf`. -/
def friSortName (n : String) : String :=
  replaceStr (pyLower n) "_fri.pdf" ".pdf"

/-- Claim-side group of a candidate file name: numeric files first, then
main source files, then backups. -/
def fileGroup (n : String) : Nat :=
  if isNumericNamed n then 0 else if isFriNamed n then 2 else 1

/-- The (amended) claimed precedence between two adjacent candidate names:
earlier group first; within the numeric group ascending numeric value;
within the main group ascending lower-cased name; within the backup group
ascending `_fri`-stripped lower-cased name. -/
def claimPrecede (a b : String) : Prop :=
  fileGroup a < fileGroup b ∨
  (isNumericNamed a = true ∧ isNumericNamed b = true ∧
    numericValue a ≤ numericValue b) ∨
  (fileGroup a = 1 ∧ fileGroup b = 1 ∧ strLe (pyLower a) (pyLower b) = true) ∨
  (fileGroup a = 2 ∧ fileGroup b = 2 ∧ strLe (friSortName a) (friSortName b) = true)

theorem get_sort_key_numeric (n : String) (h : isNumericNamed n = true) :
    get_sort_key n = SortKey.knum (numericValue n) := by
  unfold isNumericNamed at h
  simp [get_sort_key, strToNatOpt, h, numericValue]

theorem get_sort_key_fri (n : String) (h : isNumericNamed n = false)
    (hf : isFriNamed n = true) :
    get_sort_key n = SortKey.kstr 2 (friSortName n) := by
  unfold isNumericNamed at h
  unfold isFriNamed at hf
  simp [get_sort_key, h, hf, friSortName]

theorem get_sort_key_main (n : String) (h : isNumericNamed n = false)
    (hf : isFriNamed n = false) :
    get_sort_key n = SortKey.kstr 1 (pyLower n) := by
  unfold isNumericNamed at h
  unfold isFriNamed at hf
  simp [get_sort_key, h, hf]

theorem fileGroup_eq_zero (n : String) (h : isNumericNamed n = true) :
    fileGroup n = 0 := by simp [fileGroup, h]

theorem fileGroup_eq_two (n : String) (h : isNumericNamed n = false)
    (hf : isFriNamed n = true) : fileGroup n = 2 := by simp [fileGroup, h, hf]

theorem fileGroup_eq_one (n : String) (h : isNumericNamed n = false)
    (hf : isFriNamed n = false) : fileGroup n = 1 := by simp [fileGroup, h, hf]

theorem keyLE_implies_claimPrecede (a b : String)
    (h : keyLE (get_sort_key a) (get_sort_key b) = true) : claimPrecede a b := by
  by_cases hna : isNumericNamed a
  · by_cases hnb : isNumericNamed b
    · rw [get_sort_key_numeric a hna, get_sort_key_numeric b hnb] at h
      simp only [keyLE, decide_eq_true_eq] at h
      exact Or.inr (Or.inl ⟨hna, hnb, h⟩)
    · left
      rw [fileGroup_eq_zero a hna]
      by_cases hfb : isFriNamed b
      · rw [fileGroup_eq_two b (by simpa using hnb) hfb]; omega
      · rw [fileGroup_eq_one b (by simpa using hnb) (by simpa using hfb)]; omega
  · have hna' : isNumericNamed a = false := by simpa using hna
    by_cases hfa : isFriNamed a
    · -- a is a backup file: key (2, _)
      rw [get_sort_key_fri a hna' hfa] at h
      by_cases hnb : isNumericNamed b
      · rw [get_sort_key_numeric b hnb] at h
        simp [keyLE] at h
      · have hnb' : isNumericNamed b = false := by simpa using hnb
        by_cases hfb : isFriNamed b
        · rw [get_sort_key_fri b hnb' hfb] at h
          simp only [keyLE, lt_irrefl, if_neg, if_pos rfl, if_false] at h
          exact Or.inr (Or.inr (Or.inr
            ⟨fileGroup_eq_two a hna' hfa, fileGroup_eq_two b hnb' hfb, by
              simpa using h⟩))
        · rw [get_sort_key_main b hnb' (by simpa using hfb)] at h
          simp [keyLE] at h
    · -- a is a main file: key (1, _)
      have hfa' : isFriNamed a = false := by simpa using hfa
      rw [get_sort_key_main a hna' hfa'] at h
      by_cases hnb : isNumericNamed b
      · rw [get_sort_key_numeric b hnb] at h
        simp [keyLE] at h
      · have hnb' : isNumericNamed b = false := by simpa using hnb
        by_cases hfb : isFriNamed b
        · left
          rw [fileGroup_eq_one a hna' hfa', fileGroup_eq_two b hnb' hfb]
          omega
        · rw [get_sort_key_main b hnb' (by simpa using hfb)] at h
          simp only [keyLE, lt_irrefl, if_neg, if_pos rfl, if_false] at h
          exact Or.inr (Or.inr (Or.inl
            ⟨fileGroup_eq_one a hna' hfa', fileGroup_eq_one b hnb' (by simpa using hfb),
              by simpa using h⟩))

/-- Claim C7 (amended): stage 6's candidate ordering is a permutation of
the folder's candidates in which every pair of files in order satisfies the
claimed precedence: numeric-named files (ascending by numeric value) come
before main source files (ascending by lower-cased filename), which come
before `_FRI` backup files (ascending by lower-cased filename with the
`_fri.pdf` marker replaced by `.pdf`).  The pure "lexicographically by
filename" in-group orders of the unamended claim fail; see the
counterexample. -/
theorem C7_candidate_order (files : List WFile) :
    (sortPdfFiles files).Perm files ∧
    (sortPdfFiles files).Pairwise (fun a b => claimPrecede a.name b.name) := by
  constructor
  · exact sortLe_perm _ files
  · have hp := sortLe_pairwise
      (fun a b : WFile => keyLE (get_sort_key a.name) (get_sort_key b.name))
      (fun a b c hab hbc => keyLE_trans _ _ _ hab hbc)
      (fun a b => keyLE_total _ _) files
    exact hp.imp (fun hab => keyLE_implies_claimPrecede _ _ hab)

/-! ### Claim C9: rename reconciliation.  Support lemmas. -/

theorem dropWhile_head_false (p : Char → Bool) (l : List Char) :
    l.dropWhile p = [] ∨ ∃ a t, l.dropWhile p = a :: t ∧ p a = false := by
  induction l with
  | nil => left; rfl
  | cons x xs ih =>
    by_cases h : p x
    · simpa [List.dropWhile_cons, h] using ih
    · right
      exact ⟨x, xs, by simp [List.dropWhile_cons, h], by simpa using h⟩

theorem dropWhile_eq_self_aux (p : Char → Bool) (l : List Char)
    (h : l = [] ∨ ∃ a t, l = a :: t ∧ p a = false) : l.dropWhile p = l := by
  rcases h with rfl | ⟨a, t, rfl, ha⟩
  · rfl
  · simp [List.dropWhile_cons, ha]

theorem pyStrip_idem (s : String) : pyStrip (pyStrip s) = pyStrip s := by
  unfold pyStrip
  have hd1 : ∀ cs : List Char, (String.mk cs).data = cs := fun cs => rfl
  rw [hd1]
  set d1 := s.data.dropWhile isPyWs with hdef1
  set d2 := d1.reverse.dropWhile isPyWs with hdef2
  have hsuf : d2 <:+ d1.reverse := by rw [hdef2]; exact List.dropWhile_suffix _
  have hstep1 : d2.reverse.dropWhile isPyWs = d2.reverse := by
    apply dropWhile_eq_self_aux
    cases hrev : d2.reverse with
    | nil => left; rfl
    | cons a t =>
      right
      refine ⟨a, t, rfl, ?_⟩
      obtain ⟨u, hu⟩ := hsuf
      have hd1eq : d1 = a :: (t ++ u.reverse) := by
        have : d1.reverse.reverse = (u ++ d2).reverse := by rw [hu]
        rw [List.reverse_reverse, List.reverse_append, hrev] at this
        simpa using this
      rcases dropWhile_head_false isPyWs s.data with hnil | ⟨a', t', heq, ha'⟩
      · rw [← hdef1] at hnil
        rw [hnil] at hd1eq
        exact absurd hd1eq (by simp)
      · rw [← hdef1] at heq
        rw [heq] at hd1eq
        injection hd1eq with h1 _
        rw [← h1]
        exact ha'
  have hstep2 : d2.dropWhile isPyWs = d2 := by
    apply dropWhile_eq_self_aux
    rcases dropWhile_head_false isPyWs d1.reverse with hnil | ⟨a, t, heq, ha⟩
    · left; rw [hdef2]; exact hnil
    · right; exact ⟨a, t, by rw [hdef2]; exact heq, ha⟩
  rw [hstep1, List.reverse_reverse, hstep2]

/-- Stripped desired folder name of a row (the loop's `desired`). -/
def desOf (r : Row) : String := pyStrip r.folderName

/-- Stripped history folder name of a row (the loop's `history`). -/
def histOf (r : Row) : String := pyStrip r.history

/-! Tree-operation lemmas -/

theorem treeFolder_mem (tree : List MFolder) (n : String) (f : MFolder)
    (h : treeFolder tree n = some f) : f ∈ tree ∧ f.name = n := by
  unfold treeFolder at h
  have hm := List.mem_of_find?_eq_some h
  have hp := List.find?_some h
  exact ⟨hm, by simpa using hp⟩

theorem treeHas_of_treeFolder (tree : List MFolder) (n : String) (f : MFolder)
    (h : treeFolder tree n = some f) : treeHas tree n = true := by
  obtain ⟨hm, hn⟩ := treeFolder_mem tree n f h
  unfold treeHas
  rw [List.any_eq_true]
  exact ⟨f, hm, by simp [hn]⟩

theorem treeHas_false_iff (tree : List MFolder) (n : String) :
    treeHas tree n = false ↔ ∀ f ∈ tree, f.name ≠ n := by
  unfold treeHas
  rw [Bool.eq_false_iff]
  constructor
  · intro h f hf hn
    exact h (by rw [List.any_eq_true]; exact ⟨f, hf, by simp [hn]⟩)
  · intro h hc
    rw [List.any_eq_true] at hc
    obtain ⟨f, hf, he⟩ := hc
    exact h f hf (by simpa using he)

theorem treeFolder_none_of_not_has (tree : List MFolder) (n : String)
    (h : treeHas tree n = false) : treeFolder tree n = none := by
  rw [treeHas_false_iff] at h
  unfold treeFolder
  rw [List.find?_eq_none]
  intro f hf
  simp [h f hf]

theorem treeRename_other (tree : List MFolder) (h d n : String)
    (hn : n ≠ h) (hnd : n ≠ d) :
    treeFolder (treeRename tree h d) n = treeFolder tree n := by
  have hdn : ¬ d = n := fun hh => hnd hh.symm
  have hhn : ¬ h = n := fun hh => hn hh.symm
  induction tree with
  | nil => rfl
  | cons f fs ih =>
    unfold treeRename treeFolder
    simp only [List.map_cons]
    by_cases hf : f.name = h
    · rw [if_pos (by simp [hf])]
      rw [List.find?_cons_of_neg _ (by simp [hdn]),
        List.find?_cons_of_neg _ (by rw [hf]; simp [hhn])]
      exact ih
    · rw [if_neg (by simp [hf])]
      by_cases hfn : f.name = n
      · rw [List.find?_cons_of_pos _ (by simp [hfn]),
          List.find?_cons_of_pos _ (by simp [hfn])]
      · rw [List.find?_cons_of_neg _ (by simp [hfn]),
          List.find?_cons_of_neg _ (by simp [hfn])]
        exact ih

theorem treeHas_rename_other (tree : List MFolder) (h d n : String)
    (hn : n ≠ h) (hnd : n ≠ d) :
    treeHas (treeRename tree h d) n = treeHas tree n := by
  have hdn : ¬ d = n := fun hh => hnd hh.symm
  have hhn : ¬ h = n := fun hh => hn hh.symm
  induction tree with
  | nil => rfl
  | cons f fs ih =>
    unfold treeRename treeHas
    simp only [List.map_cons, List.any_cons]
    by_cases hf : f.name = h
    · rw [if_pos (by simp [hf])]
      have h1 : (({ f with name := d } : MFolder).name == n) = false := by simp [hdn]
      have h2 : (f.name == n) = false := by rw [hf]; simp [hhn]
      rw [h1, h2]
      simpa [treeRename, treeHas] using ih
    · rw [if_neg (by simp [hf])]
      by_cases hfn : f.name = n
      · simp [hfn]
      · have h2 : (f.name == n) = false := by simp [hfn]
        rw [h2]
        simpa [treeRename, treeHas] using ih

theorem treeRename_id (t : List MFolder) (A B : String)
    (h : treeHas t A = false) : treeRename t A B = t := by
  rw [treeHas_false_iff] at h
  unfold treeRename
  induction t with
  | nil => rfl
  | cons f fs ih =>
    have hf : ¬ (f.name == A) = true := by
      simp
      exact h f (List.mem_cons_self f fs)
    simp only [List.map_cons, if_neg hf]
    rw [ih (fun g hg => h g (List.mem_cons_of_mem f hg))]

theorem treeRename_names_mem (t : List MFolder) (A B n : String)
    (h : n ∈ (treeRename t A B).map (fun f => f.name)) :
    n ∈ t.map (fun f => f.name) ∨ n = B := by
  rw [List.mem_map] at h
  obtain ⟨g, hg, hn⟩ := h
  unfold treeRename at hg
  rw [List.mem_map] at hg
  obtain ⟨f, hf, hfg⟩ := hg
  by_cases hA : f.name == A
  · rw [if_pos hA] at hfg
    right
    rw [← hn, ← hfg]
  · rw [if_neg hA] at hfg
    left
    rw [List.mem_map]
    exact ⟨f, hf, by rw [hfg, hn]⟩

theorem treeRename_transition (tree : List MFolder) (A B : String) (fA : MFolder)
    (hnd : (tree.map (fun f => f.name)).Nodup)
    (hA : treeFolder tree A = some fA)
    (hB : treeHas tree B = false) :
    treeHas (treeRename tree A B) A = false ∧
    treeFolder (treeRename tree A B) B = some { fA with name := B } ∧
    ((treeRename tree A B).map (fun f => f.name)).Nodup := by
  induction tree with
  | nil => simp [treeFolder, lookupFile] at hA
  | cons f fs ih =>
    rw [List.map_cons, List.nodup_cons] at hnd
    obtain ⟨hnm, hnd'⟩ := hnd
    have hBf : f.name ≠ B ∧ treeHas fs B = false := by
      rw [treeHas_false_iff] at hB ⊢
      exact ⟨hB f (List.mem_cons_self f fs),
        fun g hg => hB g (List.mem_cons_of_mem f hg)⟩
    by_cases hfA : f.name = A
    · have hfeq : f = fA := by
        unfold treeFolder at hA
        rw [List.find?_cons_of_pos _ (by simp [hfA])] at hA
        exact Option.some.inj hA
      have hfsA : treeHas fs A = false := by
        rw [treeHas_false_iff]
        intro g hg hgn
        exact hnm (by rw [List.mem_map]; exact ⟨g, hg, by rw [hgn, hfA]⟩)
      have hren : treeRename fs A B = fs := treeRename_id fs A B hfsA
      unfold treeRename
      simp only [List.map_cons, if_pos (by simp [hfA] : (f.name == A) = true)]
      rw [show (List.map (fun f => if f.name == A then { f with name := B } else f) fs) =
        treeRename fs A B from rfl, hren]
      refine ⟨?_, ?_, ?_⟩
      · rw [treeHas_false_iff] at hfsA ⊢
        intro g hg
        rcases List.mem_cons.mp hg with h1 | h1
        · subst h1
          show B ≠ A
          intro he
          exact hBf.1 (by rw [hfA, ← he])
        · exact hfsA g h1
      · unfold treeFolder
        rw [List.find?_cons_of_pos _ (by simp)]
        rw [hfeq]
      · rw [List.nodup_cons]
        constructor
        · rw [treeHas_false_iff] at hBf
          intro hc
          rw [List.mem_map] at hc
          obtain ⟨g, hg, hgn⟩ := hc
          exact hBf.2 g hg hgn
        · exact hnd'
    · have hA' : treeFolder fs A = some fA := by
        unfold treeFolder at hA
        rw [List.find?_cons_of_neg _ (by simp [hfA])] at hA
        exact hA
      obtain ⟨ih1, ih2, ih3⟩ := ih hnd' hA' hBf.2
      unfold treeRename
      simp only [List.map_cons, if_neg (by simp [hfA] : ¬ (f.name == A) = true)]
      refine ⟨?_, ?_, ?_⟩
      · rw [treeHas_false_iff]
        intro g hg
        rcases List.mem_cons.mp hg with h1 | h1
        · subst h1; exact hfA
        · rw [treeHas_false_iff] at ih1
          exact ih1 g h1
      · unfold treeFolder
        rw [List.find?_cons_of_neg _ (by simp [hBf.1])]
        exact ih2
      · rw [List.nodup_cons]
        refine ⟨?_, ih3⟩
        intro hc
        rcases treeRename_names_mem fs A B f.name hc with h1 | h1
        · exact hnm h1
        · exact hBf.1 h1

theorem treeHas_append (t1 t2 : List MFolder) (n : String) :
    treeHas (t1 ++ t2) n = (treeHas t1 n || treeHas t2 n) := by
  simp [treeHas, List.any_append]

theorem treeMakedirs_has (tree : List MFolder) (d : String) :
    treeHas (treeMakedirs tree d) d = true := by
  unfold treeMakedirs
  by_cases h : treeHas tree d
  · simp [h]
  · simp only [h, Bool.false_eq_true, if_false]
    rw [treeHas_append]
    simp [treeHas]

theorem treeHas_makedirs_other (tree : List MFolder) (d n : String) (hn : n ≠ d) :
    treeHas (treeMakedirs tree d) n = treeHas tree n := by
  unfold treeMakedirs
  by_cases h : treeHas tree d
  · simp [h]
  · simp only [h, Bool.false_eq_true, if_false]
    rw [treeHas_append]
    have : treeHas [(⟨d, [], none, none⟩ : MFolder)] n = false := by
      simp [treeHas]
      exact fun hh => hn hh.symm
    rw [this]
    simp

theorem treeFolder_makedirs_of_some (tree : List MFolder) (d n : String)
    (f : MFolder) (h : treeFolder tree n = some f) :
    treeFolder (treeMakedirs tree d) n = some f := by
  unfold treeMakedirs
  by_cases hh : treeHas tree d
  · simp [hh, h]
  · simp only [hh, Bool.false_eq_true, if_false]
    unfold treeFolder at h ⊢
    rw [List.find?_append, h]
    rfl

theorem treeMakedirs_nodup (tree : List MFolder) (d : String)
    (h : (tree.map (fun f => f.name)).Nodup) :
    ((treeMakedirs tree d).map (fun f => f.name)).Nodup := by
  unfold treeMakedirs
  by_cases hh : treeHas tree d
  · simp [hh, h]
  · simp only [hh, Bool.false_eq_true, if_false]
    rw [List.map_append]
    rw [List.nodup_append]
    refine ⟨h, by simp, ?_⟩
    intro a ha hb
    simp at hb
    have hh2 : treeHas tree d = false := by simpa using hh
    rw [treeHas_false_iff] at hh2
    rw [List.mem_map] at ha
    obtain ⟨g, hg, hgn⟩ := ha
    exact hh2 g hg (by rw [hgn, hb])

theorem treeUpdate_other (tree : List MFolder) (n : String) (g : MFolder → MFolder)
    (m : String) (hg : ∀ f, (g f).name = f.name) :
    treeFolder (treeUpdate tree n g) m =
      (treeFolder tree m).map (fun f => if f.name == n then g f else f) := by
  induction tree with
  | nil => rfl
  | cons f fs ih =>
    unfold treeUpdate treeFolder
    simp only [List.map_cons]
    have hname : ((if f.name == n then g f else f) : MFolder).name = f.name := by
      by_cases hfn : (f.name == n) = true
      · simp [hfn, hg f]
      · simp [hfn]
    by_cases hfm : f.name = m
    · rw [List.find?_cons_of_pos _ (by rw [hname]; simp [hfm]),
        List.find?_cons_of_pos _ (by simp [hfm])]
      simp
    · rw [List.find?_cons_of_neg _ (by rw [hname]; simp [hfm]),
        List.find?_cons_of_neg _ (by simp [hfm])]
      exact ih

theorem treeUpdate_names (tree : List MFolder) (n : String)
    (g : MFolder → MFolder) (hg : ∀ f, (g f).name = f.name) :
    (treeUpdate tree n g).map (fun f => f.name) = tree.map (fun f => f.name) := by
  unfold treeUpdate
  rw [List.map_map]
  apply List.map_congr_left
  intro f _
  by_cases hfn : f.name = n
  · simp [hfn, hg f]
  · simp [hfn]

theorem treeHas_names (t : List MFolder) (m : String) :
    treeHas t m = (t.map (fun f => f.name)).any (fun x => x == m) := by
  induction t with
  | nil => rfl
  | cons f fs ih =>
    unfold treeHas
    simp only [List.map_cons, List.any_cons]
    unfold treeHas at ih
    rw [ih]

theorem treeHas_update (tree : List MFolder) (n : String) (g : MFolder → MFolder)
    (m : String) (hg : ∀ f, (g f).name = f.name) :
    treeHas (treeUpdate tree n g) m = treeHas tree m := by
  rw [treeHas_names, treeHas_names, treeUpdate_names tree n g hg]

theorem treeRemove_folder_other (tree : List MFolder) (n m : String) (hm : m ≠ n) :
    treeFolder (treeRemove tree n) m = treeFolder tree m := by
  induction tree with
  | nil => rfl
  | cons f fs ih =>
    unfold treeRemove treeFolder
    simp only [List.filter_cons]
    by_cases hfn : f.name = n
    · rw [if_neg (by simp [hfn])]
      rw [List.find?_cons_of_neg _ (by simp [hfn]; exact fun hh => hm hh.symm)]
      exact ih
    · rw [if_pos (by simp [hfn])]
      by_cases hfm : f.name = m
      · rw [List.find?_cons_of_pos _ (by simp [hfm]),
          List.find?_cons_of_pos _ (by simp [hfm])]
      · rw [List.find?_cons_of_neg _ (by simp [hfm]),
          List.find?_cons_of_neg _ (by simp [hfm])]
        exact ih

theorem treeHas_remove_other (tree : List MFolder) (n m : String) (hm : m ≠ n) :
    treeHas (treeRemove tree n) m = treeHas tree m := by
  induction tree with
  | nil => rfl
  | cons f fs ih =>
    unfold treeRemove treeHas
    simp only [List.filter_cons]
    by_cases hfn : f.name = n
    · rw [if_neg (by simp [hfn])]
      have : (f.name == m) = false := by simp [hfn]; exact fun hh => hm hh.symm
      unfold treeRemove treeHas at ih
      rw [List.any_cons, this]
      simpa using ih
    · rw [if_pos (by simp [hfn])]
      rw [List.any_cons, List.any_cons]
      unfold treeRemove treeHas at ih
      rw [ih]

theorem treeRemove_nodup (tree : List MFolder) (n : String)
    (h : (tree.map (fun f => f.name)).Nodup) :
    ((treeRemove tree n).map (fun f => f.name)).Nodup := by
  unfold treeRemove
  exact h.sublist (List.Sublist.map _ (List.filter_sublist tree))

/-! Table-operation lemmas -/

theorem setHistoryAt_length (t : List Row) (j : Nat) (v : String) :
    (setHistoryAt t j v).length = t.length := by
  induction t generalizing j with
  | nil => rfl
  | cons r rs ih =>
    cases j with
    | zero => rfl
    | succ j => simp [setHistoryAt, ih]

theorem setHistoryAt_getElem (t : List Row) (j : Nat) (v : String) (k : Nat) :
    (setHistoryAt t j v)[k]? =
      if k = j then (t[j]?).map (fun r => { r with history := v }) else t[k]? := by
  induction t generalizing j k with
  | nil => cases j <;> cases k <;> simp [setHistoryAt]
  | cons r rs ih =>
    cases j with
    | zero =>
      cases k with
      | zero => simp [setHistoryAt]
      | succ k => simp [setHistoryAt]
    | succ j =>
      cases k with
      | zero => simp [setHistoryAt]
      | succ k =>
        simp only [setHistoryAt, List.getElem?_cons_succ]
        rw [ih]
        simp

theorem setHistoryAt_mem (t : List Row) (j : Nat) (v : String) (r : Row)
    (h : r ∈ setHistoryAt t j v) :
    r ∈ t ∨ ∃ r' ∈ t, r = { r' with history := v } := by
  induction t generalizing j with
  | nil => simp [setHistoryAt] at h
  | cons x xs ih =>
    cases j with
    | zero =>
      rcases List.mem_cons.mp h with h1 | h1
      · right; exact ⟨x, List.mem_cons_self x xs, h1⟩
      · left; exact List.mem_cons_of_mem x h1
    | succ j =>
      rcases List.mem_cons.mp h with h1 | h1
      · left; subst h1; exact List.mem_cons_self r xs
      · rcases ih j h1 with h2 | ⟨r', hr', he⟩
        · left; exact List.mem_cons_of_mem x h2
        · right; exact ⟨r', List.mem_cons_of_mem x hr', he⟩

theorem batchSetHistory_length (t : List Row) (h d : String) :
    (batchSetHistory t h d).length = t.length := by
  simp [batchSetHistory]

theorem batchSetHistory_getElem (t : List Row) (h d : String) (k : Nat) :
    (batchSetHistory t h d)[k]? =
      (t[k]?).map (fun r => if r.history == h then { r with history := d } else r) := by
  simp [batchSetHistory]

theorem batchSetHistory_mem (t : List Row) (h d : String) (r : Row)
    (hm : r ∈ batchSetHistory t h d) :
    ∃ r' ∈ t, r = if r'.history == h then { r' with history := d } else r' := by
  unfold batchSetHistory at hm
  rw [List.mem_map] at hm
  obtain ⟨r', hr', he⟩ := hm
  exact ⟨r', hr', he.symm⟩

/-! The invariants of the reconciliation loop for the rename-safety claim.
Throughout, `A` is the entity's stored history name, `B` its computed
desired name, `fA` the folder initially at `A`, and `tbl0` the table the
pass started from. -/

/-- Row-level facts stable across the whole pass. -/
def tableOK (A B : String) (tbl : List Row) : Prop :=
  ∀ r ∈ tbl,
    (histOf r = A → desOf r = B) ∧
    (histOf r = B → desOf r = B) ∧
    desOf r ≠ A ∧
    (desOf r = B → histOf r = A ∨ histOf r = B)

/-- State invariant before the entity's folder has been reconciled. -/
def preInv (A B : String) (fA : MFolder) (tbl0 : List Row) (st : P1State) : Prop :=
  treeFolder st.tree A = some fA ∧
  treeHas st.tree B = false ∧
  (A, B) ∉ st.processed ∧
  (st.tree.map (fun f => f.name)).Nodup ∧
  tableOK A B st.table ∧
  (∀ r ∈ st.table, histOf r ≠ B) ∧
  (∀ (j : Nat) (r0 r1 : Row), tbl0[j]? = some r0 → st.table[j]? = some r1 →
    ((histOf r0 = A → r1.history = r0.history) ∧
     (histOf r1 = A → r1.history = r0.history))) ∧
  st.table.length = tbl0.length

/-- State invariant after the entity's folder has been reconciled. -/
def postInv (A B : String) (fA : MFolder) (tbl0 : List Row) (st : P1State) : Prop :=
  treeHas st.tree A = false ∧
  treeFolder st.tree B = some { fA with name := B } ∧
  (st.tree.map (fun f => f.name)).Nodup ∧
  tableOK A B st.table ∧
  (∀ (j : Nat) (r0 r1 : Row), tbl0[j]? = some r0 → st.table[j]? = some r1 →
    histOf r0 = A → r1.history = B) ∧
  (A, B) ∈ st.processed ∧
  (∀ r ∈ st.table, histOf r ≠ A) ∧
  st.table.length = tbl0.length

theorem setHistoryAt_mem_idx (t : List Row) (j : Nat) (v : String) (r : Row)
    (h : r ∈ setHistoryAt t j v) :
    r ∈ t ∨ ∃ r'', t[j]? = some r'' ∧ r = { r'' with history := v } := by
  induction t generalizing j with
  | nil => simp [setHistoryAt] at h
  | cons x xs ih =>
    cases j with
    | zero =>
      rcases List.mem_cons.mp h with h1 | h1
      · right; exact ⟨x, by simp, h1⟩
      · left; exact List.mem_cons_of_mem x h1
    | succ j =>
      rcases List.mem_cons.mp h with h1 | h1
      · left; subst h1; exact List.mem_cons_self r xs
      · rcases ih j h1 with h2 | ⟨r'', hr'', he⟩
        · left; exact List.mem_cons_of_mem x h2
        · right; exact ⟨r'', by simpa using hr'', he⟩

theorem histOf_set (r : Row) (v : String) :
    histOf { r with history := v } = pyStrip v := rfl

theorem desOf_set (r : Row) (v : String) :
    desOf { r with history := v } = desOf r := rfl

theorem desOf_stripped (r : Row) : pyStrip (desOf r) = desOf r := pyStrip_idem _

theorem histOf_stripped (r : Row) : pyStrip (histOf r) = histOf r := pyStrip_idem _

theorem mem_of_getElem_some (t : List Row) (idx : Nat) (row : Row)
    (hrow : t[idx]? = some row) : row ∈ t := by
  obtain ⟨hlt, hget⟩ := List.getElem?_eq_some.mp hrow
  rw [← hget]
  exact List.getElem_mem hlt

theorem tableOK_set (A B : String) (t : List Row) (idx : Nat) (row : Row)
    (hok : tableOK A B t) (hrow : t[idx]? = some row) :
    tableOK A B (setHistoryAt t idx (desOf row)) := by
  have hrowOK := hok row (mem_of_getElem_some t idx row hrow)
  intro r hr
  rcases setHistoryAt_mem_idx t idx (desOf row) r hr with h1 | ⟨r'', hr'', he⟩
  · exact hok r h1
  · rw [hrow] at hr''
    have heq : row = r'' := Option.some.inj hr''
    subst heq
    subst he
    rw [histOf_set, desOf_set, desOf_stripped]
    exact ⟨fun hc => absurd hc hrowOK.2.2.1, fun hb => hb, hrowOK.2.2.1,
      fun hb => Or.inr hb⟩

theorem p6_set (A B : String) (t : List Row) (idx : Nat) (row : Row)
    (h6 : ∀ r ∈ t, histOf r ≠ B) (hdB : desOf row ≠ B) :
    ∀ r ∈ setHistoryAt t idx (desOf row), histOf r ≠ B := by
  intro r hr
  rcases setHistoryAt_mem_idx t idx (desOf row) r hr with h1 | ⟨r'', hr'', he⟩
  · exact h6 r h1
  · subst he
    rw [histOf_set, desOf_stripped]
    exact hdB

theorem p7_set (A B : String) (tbl0 t : List Row) (idx : Nat) (row : Row)
    (h7 : ∀ (j : Nat) (r0 r1 : Row), tbl0[j]? = some r0 → t[j]? = some r1 →
      ((histOf r0 = A → r1.history = r0.history) ∧
       (histOf r1 = A → r1.history = r0.history)))
    (hrow : t[idx]? = some row) (hhA : histOf row ≠ A) (hdA : desOf row ≠ A) :
    ∀ (j : Nat) (r0 r1 : Row), tbl0[j]? = some r0 →
      (setHistoryAt t idx (desOf row))[j]? = some r1 →
      ((histOf r0 = A → r1.history = r0.history) ∧
       (histOf r1 = A → r1.history = r0.history)) := by
  intro j r0 r1 h0 h1
  rw [setHistoryAt_getElem] at h1
  by_cases hj : j = idx
  · subst hj
    rw [if_pos rfl, hrow] at h1
    have he : r1 = { row with history := desOf row } := (Option.some.inj h1).symm
    subst he
    constructor
    · intro h0A
      have hkeep := (h7 j r0 row h0 hrow).1 h0A
      have hcontra : histOf row = A := by
        unfold histOf
        rw [hkeep]
        exact h0A
      exact absurd hcontra hhA
    · intro h1A
      rw [histOf_set, desOf_stripped] at h1A
      exact absurd h1A hdA
  · rw [if_neg hj] at h1
    exact h7 j r0 r1 h0 h1

theorem tableOK_batch (A B h d : String) (t : List Row)
    (hok : tableOK A B t)
    (hh : pyStrip h = h) (hd : pyStrip d = d)
    (hhA : h ≠ A) (hhB : h ≠ B) (hdA : d ≠ A) (hdB : d ≠ B) :
    tableOK A B (batchSetHistory t h d) := by
  intro r hr
  obtain ⟨r', hr', he⟩ := batchSetHistory_mem t h d r hr
  by_cases hth : r'.history = h
  · rw [if_pos (by simp [hth])] at he
    subst he
    have hOK := hok r' hr'
    have hhist : histOf r' = h := by unfold histOf; rw [hth, hh]
    rw [histOf_set, desOf_set, hd]
    refine ⟨fun hc => absurd hc hdA, fun hc => absurd hc hdB, hOK.2.2.1, ?_⟩
    intro hB
    rcases hOK.2.2.2 hB with hA1 | hB1
    · exact absurd (hhist.symm.trans hA1) hhA
    · exact absurd (hhist.symm.trans hB1) hhB
  · rw [if_neg (by simp [hth])] at he
    subst he
    exact hok _ hr'

theorem p6_batch (A B h d : String) (t : List Row)
    (h6 : ∀ r ∈ t, histOf r ≠ B) (hd : pyStrip d = d) (hdB : d ≠ B) :
    ∀ r ∈ batchSetHistory t h d, histOf r ≠ B := by
  intro r hr
  obtain ⟨r', hr', he⟩ := batchSetHistory_mem t h d r hr
  by_cases hth : r'.history = h
  · rw [if_pos (by simp [hth])] at he
    subst he
    rw [histOf_set, hd]
    exact hdB
  · rw [if_neg (by simp [hth])] at he
    subst he
    exact h6 _ hr'

theorem p7_batch (A B h d : String) (tbl0 t : List Row)
    (h7 : ∀ (j : Nat) (r0 r1 : Row), tbl0[j]? = some r0 → t[j]? = some r1 →
      ((histOf r0 = A → r1.history = r0.history) ∧
       (histOf r1 = A → r1.history = r0.history)))
    (hh : pyStrip h = h) (hd : pyStrip d = d) (hhA : h ≠ A) (hdA : d ≠ A) :
    ∀ (j : Nat) (r0 r1 : Row), tbl0[j]? = some r0 →
      (batchSetHistory t h d)[j]? = some r1 →
      ((histOf r0 = A → r1.history = r0.history) ∧
       (histOf r1 = A → r1.history = r0.history)) := by
  intro j r0 r1 h0 h1
  rw [batchSetHistory_getElem] at h1
  cases ht : t[j]? with
  | none => rw [ht] at h1; simp at h1
  | some rold =>
    rw [ht] at h1
    have h7j := h7 j r0 rold h0 ht
    have hfr : (if (rold.history == h) = true then { rold with history := d } else rold) = r1 :=
      Option.some.inj h1
    by_cases hth : rold.history = h
    · rw [if_pos (by simp [hth])] at hfr
      have he : r1 = { rold with history := d } := hfr.symm
      subst he
      constructor
      · intro h0A
        have hkeep := h7j.1 h0A
        have hr0h : histOf r0 = h := by
          unfold histOf
          rw [← hkeep, hth, hh]
        exact absurd (hr0h.symm.trans h0A) hhA
      · intro h1A
        rw [histOf_set, hd] at h1A
        exact absurd h1A hdA
    · rw [if_neg (by simp [hth])] at hfr
      have he : r1 = rold := hfr.symm
      subst he
      exact h7j

theorem q5_set (A B : String) (tbl0 t : List Row) (idx : Nat) (row : Row)
    (h5 : ∀ (j : Nat) (r0 r1 : Row), tbl0[j]? = some r0 → t[j]? = some r1 →
      histOf r0 = A → r1.history = B)
    (hrow : t[idx]? = some row) (hBs : pyStrip B = B)
    (hcase : histOf row = B → desOf row = B) :
    ∀ (j : Nat) (r0 r1 : Row), tbl0[j]? = some r0 →
      (setHistoryAt t idx (desOf row))[j]? = some r1 →
      histOf r0 = A → r1.history = B := by
  intro j r0 r1 h0 h1 h0A
  rw [setHistoryAt_getElem] at h1
  by_cases hj : j = idx
  · subst hj
    rw [if_pos rfl, hrow] at h1
    have he : r1 = { row with history := desOf row } := (Option.some.inj h1).symm
    subst he
    have hrB : row.history = B := h5 j r0 row h0 hrow h0A
    have : histOf row = B := by unfold histOf; rw [hrB, hBs]
    show desOf row = B
    exact hcase this
  · rw [if_neg hj] at h1
    exact h5 j r0 r1 h0 h1 h0A

theorem q5_batch (A B h d : String) (tbl0 t : List Row)
    (h5 : ∀ (j : Nat) (r0 r1 : Row), tbl0[j]? = some r0 → t[j]? = some r1 →
      histOf r0 = A → r1.history = B)
    (hhB : h ≠ B) :
    ∀ (j : Nat) (r0 r1 : Row), tbl0[j]? = some r0 →
      (batchSetHistory t h d)[j]? = some r1 →
      histOf r0 = A → r1.history = B := by
  intro j r0 r1 h0 h1 h0A
  rw [batchSetHistory_getElem] at h1
  cases ht : t[j]? with
  | none => rw [ht] at h1; simp at h1
  | some rold =>
    rw [ht] at h1
    have hfr : (if (rold.history == h) = true then { rold with history := d } else rold) = r1 :=
      Option.some.inj h1
    have hrB : rold.history = B := h5 j r0 rold h0 ht h0A
    rw [if_neg (by simp [hrB]; exact fun hc => hhB hc.symm)] at hfr
    rw [← hfr]
    exact hrB

theorem q7_set (A B : String) (t : List Row) (idx : Nat) (row : Row)
    (h7 : ∀ r ∈ t, histOf r ≠ A) (hdA : desOf row ≠ A) :
    ∀ r ∈ setHistoryAt t idx (desOf row), histOf r ≠ A := by
  intro r hr
  rcases setHistoryAt_mem_idx t idx (desOf row) r hr with h1 | ⟨r'', hr'', he⟩
  · exact h7 r h1
  · subst he
    rw [histOf_set, desOf_stripped]
    exact hdA

theorem q7_batch (A B h d : String) (t : List Row)
    (h7 : ∀ r ∈ t, histOf r ≠ A) (hd : pyStrip d = d) (hdA : d ≠ A) :
    ∀ r ∈ batchSetHistory t h d, histOf r ≠ A := by
  intro r hr
  obtain ⟨r', hr', he⟩ := batchSetHistory_mem t h d r hr
  by_cases hth : r'.history = h
  · rw [if_pos (by simp [hth])] at he
    subst he
    rw [histOf_set, hd]
    exact hdA
  · rw [if_neg (by simp [hth])] at he
    subst he
    exact h7 _ hr'

/-! Transition lemmas: the batch update `history == A ↦ B` performed when
the entity's folder is physically renamed. -/

theorem tableOK_batch_AB (A B : String) (t : List Row)
    (hok : tableOK A B t) (hAs : pyStrip A = A) (hBs : pyStrip B = B)
    (hABne : A ≠ B) :
    tableOK A B (batchSetHistory t A B) := by
  intro r hr
  obtain ⟨r', hr', he⟩ := batchSetHistory_mem t A B r hr
  by_cases hth : r'.history = A
  · rw [if_pos (by simp [hth])] at he
    subst he
    have hOK := hok r' hr'
    have hhist : histOf r' = A := by unfold histOf; rw [hth, hAs]
    have hdes : desOf r' = B := hOK.1 hhist
    rw [histOf_set, desOf_set, hBs]
    exact ⟨fun hc => absurd hc (fun hc2 => hABne hc2.symm), fun _ => hdes,
      hOK.2.2.1, fun _ => Or.inr rfl⟩
  · rw [if_neg (by simp [hth])] at he
    subst he
    exact hok _ hr'

theorem q5_batch_AB (A B : String) (tbl0 t : List Row)
    (h7 : ∀ (j : Nat) (r0 r1 : Row), tbl0[j]? = some r0 → t[j]? = some r1 →
      ((histOf r0 = A → r1.history = r0.history) ∧
       (histOf r1 = A → r1.history = r0.history)))
    (hAllRaw : ∀ r ∈ tbl0, histOf r = A → r.history = A) :
    ∀ (j : Nat) (r0 r1 : Row), tbl0[j]? = some r0 →
      (batchSetHistory t A B)[j]? = some r1 →
      histOf r0 = A → r1.history = B := by
  intro j r0 r1 h0 h1 h0A
  rw [batchSetHistory_getElem] at h1
  cases ht : t[j]? with
  | none => rw [ht] at h1; simp at h1
  | some rold =>
    rw [ht] at h1
    have hfr : (if (rold.history == A) = true then { rold with history := B } else rold) = r1 :=
      Option.some.inj h1
    have hraw : r0.history = A := hAllRaw r0 (mem_of_getElem_some tbl0 j r0 h0) h0A
    have hkeep : rold.history = r0.history := (h7 j r0 rold h0 ht).1 h0A
    rw [if_pos (by simp [hkeep, hraw])] at hfr
    rw [← hfr]

theorem q7_batch_AB (A B : String) (tbl0 t : List Row)
    (h7 : ∀ (j : Nat) (r0 r1 : Row), tbl0[j]? = some r0 → t[j]? = some r1 →
      ((histOf r0 = A → r1.history = r0.history) ∧
       (histOf r1 = A → r1.history = r0.history)))
    (hlen : t.length = tbl0.length)
    (hAllRaw : ∀ r ∈ tbl0, histOf r = A → r.history = A)
    (hBs : pyStrip B = B) (hABne : A ≠ B) :
    ∀ r ∈ batchSetHistory t A B, histOf r ≠ A := by
  intro r hr
  obtain ⟨r', hr', he⟩ := batchSetHistory_mem t A B r hr
  by_cases hth : r'.history = A
  · rw [if_pos (by simp [hth])] at he
    subst he
    rw [histOf_set, hBs]
    exact fun hc => hABne hc.symm
  · rw [if_neg (by simp [hth])] at he
    subst he
    intro hA
    obtain ⟨j, hj⟩ := List.mem_iff_getElem?.mp hr'
    have hjlt : j < tbl0.length := by
      have h1 := (List.getElem?_eq_some.mp hj).1
      omega
    have h0 : tbl0[j]? = some tbl0[j] := List.getElem?_eq_getElem hjlt
    have hkeep : r.history = (tbl0[j]).history := (h7 j tbl0[j] r h0 hj).2 hA
    have h0A : histOf tbl0[j] = A := by
      unfold histOf at hA ⊢
      rw [← hkeep]
      exact hA
    have hraw : (tbl0[j]).history = A := hAllRaw _ (List.getElem_mem hjlt) h0A
    rw [hkeep, hraw] at hth
    exact hth rfl

/-! Branch equations for one reconciliation step, phrased with `desOf` and
`histOf`. -/

theorem treeFolder_some_of_has (tree : List MFolder) (n : String)
    (h : treeHas tree n = true) : ∃ f, treeFolder tree n = some f := by
  cases hf : treeFolder tree n with
  | some f => exact ⟨f, rfl⟩
  | none =>
    exfalso
    unfold treeFolder at hf
    rw [List.find?_eq_none] at hf
    unfold treeHas at h
    rw [List.any_eq_true] at h
    obtain ⟨f, hfm, hfn⟩ := h
    exact hf f hfm hfn

theorem treeHas_rename_target (t : List MFolder) (h d : String)
    (hh : treeHas t h = true) : treeHas (treeRename t h d) d = true := by
  unfold treeHas at hh ⊢
  rw [List.any_eq_true] at hh ⊢
  obtain ⟨f, hf, hfn⟩ := hh
  refine ⟨{ f with name := d }, ?_, by simp⟩
  unfold treeRename
  rw [List.mem_map]
  exact ⟨f, hf, by rw [if_pos hfn]⟩

theorem treeMergeInto_eq_none (t : List MFolder) (h d : String)
    (hf : treeFolder t h = none) : treeMergeInto t h d = t := by
  unfold treeMergeInto
  rw [hf]

theorem treeMergeInto_eq_some (t : List MFolder) (h d : String) (hf0 : MFolder)
    (hf : treeFolder t h = some hf0) :
    treeMergeInto t h d = treeRemove (treeUpdate t d (fun df =>
      { df with
        files := mergeFolderFiles hf0.files df.files,
        cache := match df.cache with | some c => some c | none => hf0.cache,
        isoExcel := match df.isoExcel with | some l => some l | none => hf0.isoExcel })) h := by
  unfold treeMergeInto
  rw [hf]

theorem treeMergeInto_has_other (t : List MFolder) (h d m : String) (hm : m ≠ h) :
    treeHas (treeMergeInto t h d) m = treeHas t m := by
  cases hf : treeFolder t h with
  | none => rw [treeMergeInto_eq_none t h d hf]
  | some hf0 =>
    rw [treeMergeInto_eq_some t h d hf0 hf]
    rw [treeHas_remove_other _ _ _ hm]
    exact treeHas_update t d (fun df =>
      { df with
        files := mergeFolderFiles hf0.files df.files,
        cache := match df.cache with | some c => some c | none => hf0.cache,
        isoExcel := match df.isoExcel with | some l => some l | none => hf0.isoExcel })
      m (fun f => rfl)

theorem treeMergeInto_folder_other (t : List MFolder) (h d m : String)
    (hm : m ≠ h) (hmd : m ≠ d) :
    treeFolder (treeMergeInto t h d) m = treeFolder t m := by
  cases hf : treeFolder t h with
  | none => rw [treeMergeInto_eq_none t h d hf]
  | some hf0 =>
    rw [treeMergeInto_eq_some t h d hf0 hf]
    rw [treeRemove_folder_other _ _ _ hm]
    have hupd := treeUpdate_other t d (fun df =>
      { df with
        files := mergeFolderFiles hf0.files df.files,
        cache := match df.cache with | some c => some c | none => hf0.cache,
        isoExcel := match df.isoExcel with | some l => some l | none => hf0.isoExcel })
      m (fun f => rfl)
    rw [hupd]
    cases hm2 : treeFolder t m with
    | none => rfl
    | some fm =>
      have hname := (treeFolder_mem t m fm hm2).2
      simp [hname, hmd]

theorem treeMergeInto_nodup (t : List MFolder) (h d : String)
    (hnd : (t.map (fun f => f.name)).Nodup) :
    ((treeMergeInto t h d).map (fun f => f.name)).Nodup := by
  cases hf : treeFolder t h with
  | none => rw [treeMergeInto_eq_none t h d hf]; exact hnd
  | some hf0 =>
    rw [treeMergeInto_eq_some t h d hf0 hf]
    apply treeRemove_nodup
    have hupd := treeUpdate_names t d (fun df =>
      { df with
        files := mergeFolderFiles hf0.files df.files,
        cache := match df.cache with | some c => some c | none => hf0.cache,
        isoExcel := match df.isoExcel with | some l => some l | none => hf0.isoExcel })
      (fun f => rfl)
    rw [hupd]
    exact hnd

theorem reconcileRow_none (st : P1State) (idx : Nat)
    (hget : st.table.get? idx = none) : reconcileRow st idx = st := by
  unfold reconcileRow
  rw [hget]

theorem reconcileRow_skip (st : P1State) (idx : Nat) (row : Row)
    (hget : st.table.get? idx = some row)
    (hb : (desOf row == "" || histOf row == "") = true) :
    reconcileRow st idx = st := by
  unfold reconcileRow
  rw [hget]
  simp only [desOf, histOf] at hb
  simp [hb]

theorem reconcileRow_processed (st : P1State) (idx : Nat) (row : Row)
    (hget : st.table.get? idx = some row)
    (hb : (desOf row == "" || histOf row == "") = false)
    (hp : st.processed.contains (histOf row, desOf row) = true) :
    reconcileRow st idx = { st with table := setHistoryAt st.table idx (desOf row) } := by
  unfold reconcileRow
  rw [hget]
  simp only [desOf, histOf] at hb hp
  have hp' : (pyStrip row.history, pyStrip row.folderName) ∈ st.processed := by
    simpa using hp
  simp [hb, hp']
  simp only [desOf, histOf]

theorem reconcileRow_nomove_hasd (st : P1State) (idx : Nat) (row : Row)
    (hget : st.table.get? idx = some row)
    (hb : (desOf row == "" || histOf row == "") = false)
    (hp : st.processed.contains (histOf row, desOf row) = false)
    (hm : (histOf row != desOf row && treeHas st.tree (histOf row)) = false)
    (hd : treeHas st.tree (desOf row) = true) :
    reconcileRow st idx = { st with table := setHistoryAt st.table idx (desOf row) } := by
  unfold reconcileRow
  rw [hget]
  simp only [desOf, histOf] at hb hp hm hd
  have hp' : (pyStrip row.history, pyStrip row.folderName) ∉ st.processed := by
    simpa using hp
  have hm' : ¬(¬ pyStrip row.history = pyStrip row.folderName ∧
      treeHas st.tree (pyStrip row.history) = true) := by
    intro hc
    rw [hc.2] at hm
    simp at hm
    exact hc.1 hm
  simp [hb, hp', hm', hd]
  simp [desOf, histOf]

theorem reconcileRow_nomove_nod (st : P1State) (idx : Nat) (row : Row)
    (hget : st.table.get? idx = some row)
    (hb : (desOf row == "" || histOf row == "") = false)
    (hp : st.processed.contains (histOf row, desOf row) = false)
    (hm : (histOf row != desOf row && treeHas st.tree (histOf row)) = false)
    (hd : treeHas st.tree (desOf row) = false) :
    reconcileRow st idx =
      { st with
        tree := treeMakedirs st.tree (desOf row),
        table := setHistoryAt st.table idx (desOf row) } := by
  unfold reconcileRow
  rw [hget]
  simp only [desOf, histOf] at hb hp hm hd
  have hp' : (pyStrip row.history, pyStrip row.folderName) ∉ st.processed := by
    simpa using hp
  have hm' : ¬(¬ pyStrip row.history = pyStrip row.folderName ∧
      treeHas st.tree (pyStrip row.history) = true) := by
    intro hc
    rw [hc.2] at hm
    simp at hm
    exact hc.1 hm
  simp [hb, hp', hm', hd]
  simp [desOf, histOf]

theorem reconcileRow_move_rename (st : P1State) (idx : Nat) (row : Row)
    (hget : st.table.get? idx = some row)
    (hb : (desOf row == "" || histOf row == "") = false)
    (hp : st.processed.contains (histOf row, desOf row) = false)
    (hm : (histOf row != desOf row && treeHas st.tree (histOf row)) = true)
    (hd : treeHas st.tree (desOf row) = false)
    (hd2 : treeHas (treeRename st.tree (histOf row) (desOf row)) (desOf row) = true) :
    reconcileRow st idx =
      { table := setHistoryAt (batchSetHistory st.table (histOf row) (desOf row)) idx (desOf row),
        tree := treeRename st.tree (histOf row) (desOf row),
        processed := st.processed ++ [(histOf row, desOf row)] } := by
  unfold reconcileRow
  rw [hget]
  simp only [desOf, histOf] at hb hp hm hd hd2
  have hp' : (pyStrip row.history, pyStrip row.folderName) ∉ st.processed := by
    simpa using hp
  have hm' : ¬ pyStrip row.history = pyStrip row.folderName ∧
      treeHas st.tree (pyStrip row.history) = true := by
    simpa using hm
  simp [hb, hp', hm'.1, hm'.2, hd, hd2]
  simp [desOf, histOf]

theorem reconcileRow_move_merge (st : P1State) (idx : Nat) (row : Row)
    (hget : st.table.get? idx = some row)
    (hb : (desOf row == "" || histOf row == "") = false)
    (hp : st.processed.contains (histOf row, desOf row) = false)
    (hm : (histOf row != desOf row && treeHas st.tree (histOf row)) = true)
    (hd : treeHas st.tree (desOf row) = true)
    (hd2 : treeHas (treeMergeInto st.tree (histOf row) (desOf row)) (desOf row) = true) :
    reconcileRow st idx =
      { table := setHistoryAt (batchSetHistory st.table (histOf row) (desOf row)) idx (desOf row),
        tree := treeMergeInto st.tree (histOf row) (desOf row),
        processed := st.processed ++ [(histOf row, desOf row)] } := by
  unfold reconcileRow
  rw [hget]
  simp only [desOf, histOf] at hb hp hm hd hd2
  have hp' : (pyStrip row.history, pyStrip row.folderName) ∉ st.processed := by
    simpa using hp
  have hm' : ¬ pyStrip row.history = pyStrip row.folderName ∧
      treeHas st.tree (pyStrip row.history) = true := by
    simpa using hm
  simp [hb, hp', hm'.1, hm'.2, hd, hd2]
  simp [desOf, histOf]

theorem batch_getElem_props (t : List Row) (h d : String) (idx : Nat) (row : Row)
    (hget : t[idx]? = some row) :
    ∃ rowB, (batchSetHistory t h d)[idx]? = some rowB ∧ desOf rowB = desOf row ∧
      (histOf rowB = histOf row ∨ histOf rowB = pyStrip d) := by
  rw [batchSetHistory_getElem, hget]
  by_cases hc : (row.history == h) = true
  · refine ⟨{ row with history := d }, ?_, rfl, Or.inr rfl⟩
    show some (if row.history == h then { row with history := d } else row) = _
    rw [if_pos hc]
  · refine ⟨row, ?_, rfl, Or.inl rfl⟩
    show some (if row.history == h then { row with history := d } else row) = _
    rw [if_neg hc]

/-- Every reconciliation step keeps the post-rename invariant: once the
entity's folder sits at `B` and every referencing row reads `B`, later rows
can neither resurrect `A` nor disturb `B`. -/
theorem reconcileRow_post_preserved (A B : String) (fA : MFolder) (tbl0 : List Row)
    (hBs : pyStrip B = B)
    (st : P1State) (idx : Nat)
    (h : postInv A B fA tbl0 st) :
    postInv A B fA tbl0 (reconcileRow st idx) := by
  obtain ⟨q1, q2, q3, q4, q5, q6, q7, q8⟩ := h
  cases hget : st.table.get? idx with
  | none =>
    rw [reconcileRow_none st idx hget]
    exact ⟨q1, q2, q3, q4, q5, q6, q7, q8⟩
  | some row =>
    have hget' : st.table[idx]? = some row := by
      rw [← List.get?_eq_getElem?]; exact hget
    have hrmem : row ∈ st.table := mem_of_getElem_some st.table idx row hget'
    have hrowOK := q4 row hrmem
    have hrA : histOf row ≠ A := q7 row hrmem
    have hdA : desOf row ≠ A := hrowOK.2.2.1
    by_cases hblank : (desOf row == "" || histOf row == "") = true
    · rw [reconcileRow_skip st idx row hget hblank]
      exact ⟨q1, q2, q3, q4, q5, q6, q7, q8⟩
    · have hb : (desOf row == "" || histOf row == "") = false :=
        Bool.eq_false_iff.mpr hblank
      by_cases hproc : st.processed.contains (histOf row, desOf row) = true
      · rw [reconcileRow_processed st idx row hget hb hproc]
        refine ⟨q1, q2, q3, ?_, ?_, q6, ?_, ?_⟩
        · exact tableOK_set A B st.table idx row q4 hget'
        · exact q5_set A B tbl0 st.table idx row q5 hget' hBs (fun hB => hrowOK.2.1 hB)
        · exact q7_set A B st.table idx row q7 hdA
        · rw [setHistoryAt_length]; exact q8
      · have hp : st.processed.contains (histOf row, desOf row) = false :=
          Bool.eq_false_iff.mpr hproc
        by_cases hmv : (histOf row != desOf row && treeHas st.tree (histOf row)) = true
        · have hm' : ¬ histOf row = desOf row ∧ treeHas st.tree (histOf row) = true := by
            simpa using hmv
          have hrB : histOf row ≠ B := by
            intro hB
            exact hm'.1 (hB.trans (hrowOK.2.1 hB).symm)
          have hdB : desOf row ≠ B := by
            intro hB
            rcases hrowOK.2.2.2 hB with h1 | h1
            · exact hrA h1
            · exact hrB h1
          have hokb := tableOK_batch A B (histOf row) (desOf row) st.table q4
            (histOf_stripped row) (desOf_stripped row) hrA hrB hdA hdB
          have hq5b := q5_batch A B (histOf row) (desOf row) tbl0 st.table q5 hrB
          have hq7b := q7_batch A B (histOf row) (desOf row) st.table q7
            (desOf_stripped row) hdA
          have hq6' : (A, B) ∈ st.processed ++ [(histOf row, desOf row)] :=
            List.mem_append_left _ q6
          have hlen' : (batchSetHistory st.table (histOf row) (desOf row)).length =
              tbl0.length := by rw [batchSetHistory_length]; exact q8
          obtain ⟨rowB, hrb, hdesB, hhistB⟩ :=
            batch_getElem_props st.table (histOf row) (desOf row) idx row hget'
          have hcaseB : histOf rowB = B → desOf rowB = B := by
            intro hcB
            exfalso
            rcases hhistB with h1 | h1
            · exact hrB (h1.symm.trans hcB)
            · have h2 : histOf rowB = desOf row := by
                rw [h1, desOf_stripped]
              exact hdB (h2.symm.trans hcB)
          have hdAB : desOf rowB ≠ A := by rw [hdesB]; exact hdA
          have hokS := tableOK_set A B _ idx rowB hokb hrb
          rw [hdesB] at hokS
          have hq5S := q5_set A B tbl0 _ idx rowB hq5b hrb hBs hcaseB
          rw [hdesB] at hq5S
          have hq7S := q7_set A B _ idx rowB hq7b hdAB
          rw [hdesB] at hq7S
          by_cases hdes : treeHas st.tree (desOf row) = true
          · have hd2 : treeHas (treeMergeInto st.tree (histOf row) (desOf row))
                (desOf row) = true := by
              rw [treeMergeInto_has_other st.tree (histOf row) (desOf row) (desOf row)
                (fun he => hm'.1 he.symm)]
              exact hdes
            rw [reconcileRow_move_merge st idx row hget hb hp hmv hdes hd2]
            refine ⟨?_, ?_, ?_, hokS, hq5S, hq6', hq7S, ?_⟩
            · rw [treeMergeInto_has_other _ _ _ _ (fun he => hrA he.symm)]
              exact q1
            · rw [treeMergeInto_folder_other _ _ _ _ (fun he => hrB he.symm)
                (fun he => hdB he.symm)]
              exact q2
            · exact treeMergeInto_nodup _ _ _ q3
            · rw [setHistoryAt_length]; exact hlen'
          · have hdes' : treeHas st.tree (desOf row) = false :=
              Bool.eq_false_iff.mpr hdes
            have hd2 : treeHas (treeRename st.tree (histOf row) (desOf row))
                (desOf row) = true := treeHas_rename_target _ _ _ hm'.2
            obtain ⟨fh, hfh⟩ := treeFolder_some_of_has st.tree (histOf row) hm'.2
            have htr := treeRename_transition st.tree (histOf row) (desOf row) fh
              q3 hfh hdes'
            rw [reconcileRow_move_rename st idx row hget hb hp hmv hdes' hd2]
            refine ⟨?_, ?_, htr.2.2, hokS, hq5S, hq6', hq7S, ?_⟩
            · rw [treeHas_rename_other _ _ _ _ (fun he => hrA he.symm)
                (fun he => hdA he.symm)]
              exact q1
            · rw [treeRename_other _ _ _ _ (fun he => hrB he.symm)
                (fun he => hdB he.symm)]
              exact q2
            · rw [setHistoryAt_length]; exact hlen'
        · have hmv' : (histOf row != desOf row && treeHas st.tree (histOf row)) = false :=
            Bool.eq_false_iff.mpr hmv
          by_cases hdes : treeHas st.tree (desOf row) = true
          · rw [reconcileRow_nomove_hasd st idx row hget hb hp hmv' hdes]
            refine ⟨q1, q2, q3, ?_, ?_, q6, ?_, ?_⟩
            · exact tableOK_set A B st.table idx row q4 hget'
            · exact q5_set A B tbl0 st.table idx row q5 hget' hBs
                (fun hB => hrowOK.2.1 hB)
            · exact q7_set A B st.table idx row q7 hdA
            · rw [setHistoryAt_length]; exact q8
          · have hdes' : treeHas st.tree (desOf row) = false :=
              Bool.eq_false_iff.mpr hdes
            have hdB : desOf row ≠ B := by
              intro hB
              rw [hB] at hdes'
              have := treeHas_of_treeFolder st.tree B _ q2
              rw [this] at hdes'
              exact Bool.true_eq_false.mp hdes'
            rw [reconcileRow_nomove_nod st idx row hget hb hp hmv' hdes']
            refine ⟨?_, ?_, ?_, ?_, ?_, q6, ?_, ?_⟩
            · rw [treeHas_makedirs_other _ _ _ (fun he => hdA he.symm)]
              exact q1
            · exact treeFolder_makedirs_of_some _ _ _ _ q2
            · exact treeMakedirs_nodup _ _ q3
            · exact tableOK_set A B st.table idx row q4 hget'
            · exact q5_set A B tbl0 st.table idx row q5 hget' hBs
                (fun hB => hrowOK.2.1 hB)
            · exact q7_set A B st.table idx row q7 hdA
            · rw [setHistoryAt_length]; exact q8

/-- Processing the entity's own row while the pre-rename invariant holds
performs the physical rename and the batch bookkeeping update, establishing
the post-rename invariant. -/
theorem reconcileRow_pre_transition (A B : String) (fA : MFolder) (tbl0 : List Row)
    (hABne : A ≠ B) (hAne : A ≠ "") (hBne : B ≠ "")
    (hAllRaw : ∀ r ∈ tbl0, histOf r = A → r.history = A)
    (st : P1State) (idx : Nat) (row : Row)
    (hget : st.table.get? idx = some row) (hA : histOf row = A)
    (h : preInv A B fA tbl0 st) :
    postInv A B fA tbl0 (reconcileRow st idx) := by
  obtain ⟨p1, p2, p3, p4, p5, p6, p7, p8⟩ := h
  have hget' : st.table[idx]? = some row := by
    rw [← List.get?_eq_getElem?]; exact hget
  have hrmem := mem_of_getElem_some st.table idx row hget'
  have hrowOK := p5 row hrmem
  have hdB : desOf row = B := hrowOK.1 hA
  subst hA
  subst hdB
  have hb : (desOf row == "" || histOf row == "") = false := by
    simp [hBne, hAne]
  have hp : st.processed.contains (histOf row, desOf row) = false := by
    simpa using p3
  have hmv : (histOf row != desOf row && treeHas st.tree (histOf row)) = true := by
    simp [hABne, treeHas_of_treeFolder st.tree (histOf row) fA p1]
  have htr := treeRename_transition st.tree (histOf row) (desOf row) fA p4 p1 p2
  have hd2 : treeHas (treeRename st.tree (histOf row) (desOf row)) (desOf row) = true :=
    treeHas_of_treeFolder _ _ _ htr.2.1
  rw [reconcileRow_move_rename st idx row hget hb hp hmv p2 hd2]
  have hq6' : (histOf row, desOf row) ∈ st.processed ++ [(histOf row, desOf row)] :=
    List.mem_append_right _ (by simp)
  have hokb := tableOK_batch_AB (histOf row) (desOf row) st.table p5
    (histOf_stripped row) (desOf_stripped row) hABne
  have hq5b := q5_batch_AB (histOf row) (desOf row) tbl0 st.table p7 hAllRaw
  have hq7b := q7_batch_AB (histOf row) (desOf row) tbl0 st.table p7 p8 hAllRaw
    (desOf_stripped row) hABne
  obtain ⟨rowB, hrb, hdesB, hhistB⟩ :=
    batch_getElem_props st.table (histOf row) (desOf row) idx row hget'
  have hdAB : desOf rowB ≠ histOf row := by rw [hdesB]; exact hrowOK.2.2.1
  have hokS := tableOK_set (histOf row) (desOf row) _ idx rowB hokb hrb
  rw [hdesB] at hokS
  have hq5S := q5_set (histOf row) (desOf row) tbl0 _ idx rowB hq5b hrb
    (desOf_stripped row) (fun _ => hdesB)
  rw [hdesB] at hq5S
  have hq7S := q7_set (histOf row) (desOf row) _ idx rowB hq7b hdAB
  rw [hdesB] at hq7S
  refine ⟨htr.1, htr.2.1, htr.2.2, hokS, hq5S, hq6', hq7S, ?_⟩
  rw [setHistoryAt_length, batchSetHistory_length]
  exact p8

/-- Processing any other row keeps the pre-rename invariant: it can touch
neither the folder at `A` nor the name `B`, and it leaves every
`A`-referencing history cell intact. -/
theorem reconcileRow_pre_keep (A B : String) (fA : MFolder) (tbl0 : List Row)
    (st : P1State) (idx : Nat)
    (h : preInv A B fA tbl0 st)
    (hnoA : ∀ row, st.table.get? idx = some row → histOf row ≠ A) :
    preInv A B fA tbl0 (reconcileRow st idx) := by
  obtain ⟨p1, p2, p3, p4, p5, p6, p7, p8⟩ := h
  cases hget : st.table.get? idx with
  | none =>
    rw [reconcileRow_none st idx hget]
    exact ⟨p1, p2, p3, p4, p5, p6, p7, p8⟩
  | some row =>
    have hget' : st.table[idx]? = some row := by
      rw [← List.get?_eq_getElem?]; exact hget
    have hrmem := mem_of_getElem_some st.table idx row hget'
    have hrowOK := p5 row hrmem
    have hrA : histOf row ≠ A := hnoA row hget
    have hrB : histOf row ≠ B := p6 row hrmem
    have hdA : desOf row ≠ A := hrowOK.2.2.1
    have hdB : desOf row ≠ B := by
      intro hBe
      rcases hrowOK.2.2.2 hBe with h1 | h1
      · exact hrA h1
      · exact hrB h1
    by_cases hblank : (desOf row == "" || histOf row == "") = true
    · rw [reconcileRow_skip st idx row hget hblank]
      exact ⟨p1, p2, p3, p4, p5, p6, p7, p8⟩
    · have hb : (desOf row == "" || histOf row == "") = false :=
        Bool.eq_false_iff.mpr hblank
      by_cases hproc : st.processed.contains (histOf row, desOf row) = true
      · rw [reconcileRow_processed st idx row hget hb hproc]
        refine ⟨p1, p2, p3, p4, ?_, ?_, ?_, ?_⟩
        · exact tableOK_set A B st.table idx row p5 hget'
        · exact p6_set A B st.table idx row p6 hdB
        · exact p7_set A B tbl0 st.table idx row p7 hget' hrA hdA
        · rw [setHistoryAt_length]; exact p8
      · have hp : st.processed.contains (histOf row, desOf row) = false :=
          Bool.eq_false_iff.mpr hproc
        by_cases hmv : (histOf row != desOf row && treeHas st.tree (histOf row)) = true
        · have hm' : ¬ histOf row = desOf row ∧ treeHas st.tree (histOf row) = true := by
            simpa using hmv
          have hokb := tableOK_batch A B (histOf row) (desOf row) st.table p5
            (histOf_stripped row) (desOf_stripped row) hrA hrB hdA hdB
          have hp6b := p6_batch A B (histOf row) (desOf row) st.table p6
            (desOf_stripped row) hdB
          have hp7b := p7_batch A B (histOf row) (desOf row) tbl0 st.table p7
            (histOf_stripped row) (desOf_stripped row) hrA hdA
          obtain ⟨rowB, hrb, hdesB, hhistB⟩ :=
            batch_getElem_props st.table (histOf row) (desOf row) idx row hget'
          have hrAB : histOf rowB ≠ A := by
            rcases hhistB with h1 | h1
            · rw [h1]; exact hrA
            · rw [h1, desOf_stripped]; exact hdA
          have hdAB : desOf rowB ≠ A := by rw [hdesB]; exact hdA
          have hdBB : desOf rowB ≠ B := by rw [hdesB]; exact hdB
          have hokS := tableOK_set A B _ idx rowB hokb hrb
          rw [hdesB] at hokS
          have hp6S := p6_set A B _ idx rowB hp6b hdBB
          rw [hdesB] at hp6S
          have hp7S := p7_set A B tbl0 _ idx rowB hp7b hrb hrAB hdAB
          rw [hdesB] at hp7S
          have hlen' : (setHistoryAt (batchSetHistory st.table (histOf row) (desOf row))
              idx (desOf row)).length = tbl0.length := by
            rw [setHistoryAt_length, batchSetHistory_length]; exact p8
          have hproc' : (A, B) ∉ st.processed ++ [(histOf row, desOf row)] := by
            intro hc
            rcases List.mem_append.mp hc with h1 | h1
            · exact p3 h1
            · rw [List.mem_singleton] at h1
              exact hrA (congrArg Prod.fst h1).symm
          by_cases hdes : treeHas st.tree (desOf row) = true
          · have hd2 : treeHas (treeMergeInto st.tree (histOf row) (desOf row))
                (desOf row) = true := by
              rw [treeMergeInto_has_other st.tree (histOf row) (desOf row) (desOf row)
                (fun he => hm'.1 he.symm)]
              exact hdes
            rw [reconcileRow_move_merge st idx row hget hb hp hmv hdes hd2]
            refine ⟨?_, ?_, hproc', ?_, hokS, hp6S, hp7S, hlen'⟩
            · rw [treeMergeInto_folder_other _ _ _ _ (fun he => hrA he.symm)
                (fun he => hdA he.symm)]
              exact p1
            · rw [treeMergeInto_has_other _ _ _ _ (fun he => hrB he.symm)]
              exact p2
            · exact treeMergeInto_nodup _ _ _ p4
          · have hdes' : treeHas st.tree (desOf row) = false :=
              Bool.eq_false_iff.mpr hdes
            have hd2 : treeHas (treeRename st.tree (histOf row) (desOf row))
                (desOf row) = true := treeHas_rename_target _ _ _ hm'.2
            obtain ⟨fh, hfh⟩ := treeFolder_some_of_has st.tree (histOf row) hm'.2
            have htr := treeRename_transition st.tree (histOf row) (desOf row) fh
              p4 hfh hdes'
            rw [reconcileRow_move_rename st idx row hget hb hp hmv hdes' hd2]
            refine ⟨?_, ?_, hproc', htr.2.2, hokS, hp6S, hp7S, hlen'⟩
            · rw [treeRename_other _ _ _ _ (fun he => hrA he.symm)
                (fun he => hdA he.symm)]
              exact p1
            · rw [treeHas_rename_other _ _ _ _ (fun he => hrB he.symm)
                (fun he => hdB he.symm)]
              exact p2
        · have hmv' : (histOf row != desOf row && treeHas st.tree (histOf row)) = false :=
            Bool.eq_false_iff.mpr hmv
          by_cases hdes : treeHas st.tree (desOf row) = true
          · rw [reconcileRow_nomove_hasd st idx row hget hb hp hmv' hdes]
            refine ⟨p1, p2, p3, p4, ?_, ?_, ?_, ?_⟩
            · exact tableOK_set A B st.table idx row p5 hget'
            · exact p6_set A B st.table idx row p6 hdB
            · exact p7_set A B tbl0 st.table idx row p7 hget' hrA hdA
            · rw [setHistoryAt_length]; exact p8
          · have hdes' : treeHas st.tree (desOf row) = false :=
              Bool.eq_false_iff.mpr hdes
            rw [reconcileRow_nomove_nod st idx row hget hb hp hmv' hdes']
            refine ⟨?_, ?_, p3, ?_, ?_, ?_, ?_, ?_⟩
            · exact treeFolder_makedirs_of_some _ _ _ _ p1
            · rw [treeHas_makedirs_other _ _ _ (fun he => hdB he.symm)]
              exact p2
            · exact treeMakedirs_nodup _ _ p4
            · exact tableOK_set A B st.table idx row p5 hget'
            · exact p6_set A B st.table idx row p6 hdB
            · exact p7_set A B tbl0 st.table idx row p7 hget' hrA hdA
            · rw [setHistoryAt_length]; exact p8

theorem postInv_foldl (A B : String) (fA : MFolder) (tbl0 : List Row)
    (hBs : pyStrip B = B) :
    ∀ (l : List Nat) (st : P1State), postInv A B fA tbl0 st →
      postInv A B fA tbl0 (l.foldl reconcileRow st) := by
  intro l
  induction l with
  | nil => intro st h; exact h
  | cons x xs ih =>
    intro st h
    exact ih _ (reconcileRow_post_preserved A B fA tbl0 hBs st x h)

theorem inv_foldl (A B : String) (fA : MFolder) (tbl0 : List Row)
    (hABne : A ≠ B) (hAne : A ≠ "") (hBne : B ≠ "") (hBs : pyStrip B = B)
    (hAllRaw : ∀ r ∈ tbl0, histOf r = A → r.history = A) :
    ∀ (l : List Nat) (st : P1State),
      (preInv A B fA tbl0 st ∨ postInv A B fA tbl0 st) →
      (preInv A B fA tbl0 (l.foldl reconcileRow st) ∨
       postInv A B fA tbl0 (l.foldl reconcileRow st)) := by
  intro l
  induction l with
  | nil => intro st h; exact h
  | cons x xs ih =>
    intro st h
    rcases h with hpre | hpost
    · by_cases hc : ∃ row, st.table.get? x = some row ∧ histOf row = A
      · obtain ⟨row, hg, hA⟩ := hc
        exact ih _ (Or.inr (reconcileRow_pre_transition A B fA tbl0 hABne hAne hBne
          hAllRaw st x row hg hA hpre))
      · have hnoA : ∀ row, st.table.get? x = some row → histOf row ≠ A :=
          fun row hg hA => hc ⟨row, hg, hA⟩
        exact ih _ (Or.inl (reconcileRow_pre_keep A B fA tbl0 st x hpre hnoA))
    · exact ih _ (Or.inr (reconcileRow_post_preserved A B fA tbl0 hBs st x hpost))

/-- C9: for an entity whose stored history name is `A` and whose computed
desired name is `B` (`A ≠ B`, both nonblank and stripped), where folder `A`
exists in a duplicate-free tree and folder `B` does not, and where no other
row claims the names `A` or `B` for a different purpose (rows reading
history `A` are exactly the rows desiring `B`, stored verbatim, no row
desires `A`, no row already reads history `B`): after the stage-1
reconciliation pass, folder `A` no longer exists, folder `B` holds exactly
the files folder `A` held before, and every row that started with history
`A` — the entity's row and every other referencing row — ends with its
history cell equal to `B`. -/
theorem C9_rename_batch_consistency
    (A B : String) (fA : MFolder) (tbl0 : List Row) (tree0 : List MFolder)
    (i : Nat) (r0 : Row)
    (hAs : pyStrip A = A) (hBs : pyStrip B = B)
    (hABne : A ≠ B) (hAne : A ≠ "") (hBne : B ≠ "")
    (hfA : treeFolder tree0 A = some fA)
    (hnoB : treeHas tree0 B = false)
    (hnd : (tree0.map (fun f => f.name)).Nodup)
    (hi : tbl0[i]? = some r0) (hr0 : r0.history = A)
    (hclean : ∀ r ∈ tbl0,
      (histOf r = A ↔ desOf r = B) ∧ desOf r ≠ A ∧ histOf r ≠ B ∧
      (histOf r = A → r.history = A)) :
    treeHas (reconcilePass tbl0 tree0).tree A = false ∧
    treeFolder (reconcilePass tbl0 tree0).tree B = some { fA with name := B } ∧
    (∀ (j : Nat) (rj r1 : Row), tbl0[j]? = some rj →
      (reconcilePass tbl0 tree0).table[j]? = some r1 →
      histOf rj = A → r1.history = B) := by
  have hAllRaw : ∀ r ∈ tbl0, histOf r = A → r.history = A :=
    fun r hr => (hclean r hr).2.2.2
  have hOK : tableOK A B tbl0 := by
    intro r hr
    obtain ⟨hc1, hc2, hc3, _⟩ := hclean r hr
    exact ⟨hc1.mp, fun hB => absurd hB hc3, hc2, fun hdB => Or.inl (hc1.mpr hdB)⟩
  have hp6 : ∀ r ∈ tbl0, histOf r ≠ B := fun r hr => (hclean r hr).2.2.1
  have hpre0 : preInv A B fA tbl0 ⟨tbl0, tree0, []⟩ :=
    ⟨hfA, hnoB, by simp, hnd, hOK, hp6,
      (fun j ra rb h0 h1 => by
        rw [h0] at h1
        have he := Option.some.inj h1
        subst he
        exact ⟨fun _ => rfl, fun _ => rfl⟩), rfl⟩
  have hA0 : histOf r0 = A := by unfold histOf; rw [hr0]; exact hAs
  have hlt : i < tbl0.length := (List.getElem?_eq_some.mp hi).1
  have hsplit : List.range tbl0.length =
      (List.range i ++ [i]) ++ (List.range (tbl0.length - (i+1))).map ((i+1) + ·) := by
    rw [← List.range_succ i, ← List.range_add]
    have : i + 1 + (tbl0.length - (i + 1)) = tbl0.length := by omega
    rw [this]
  have hpass : reconcilePass tbl0 tree0 =
      ((List.range (tbl0.length - (i+1))).map ((i+1) + ·)).foldl reconcileRow
        (reconcileRow ((List.range i).foldl reconcileRow ⟨tbl0, tree0, []⟩) i) := by
    unfold reconcilePass
    rw [hsplit, List.foldl_append, List.foldl_append]
    rfl
  have hinv := inv_foldl A B fA tbl0 hABne hAne hBne hBs hAllRaw
    (List.range i) ⟨tbl0, tree0, []⟩ (Or.inl hpre0)
  have hpost : postInv A B fA tbl0
      (reconcileRow ((List.range i).foldl reconcileRow ⟨tbl0, tree0, []⟩) i) := by
    rcases hinv with hpre | hpost
    · have hlt' : i < ((List.range i).foldl reconcileRow
          (⟨tbl0, tree0, []⟩ : P1State)).table.length := by
        rw [hpre.2.2.2.2.2.2.2]
        exact hlt
      have hg1 := List.getElem?_eq_getElem hlt'
      have hA1 : histOf (((List.range i).foldl reconcileRow
          (⟨tbl0, tree0, []⟩ : P1State)).table[i]) = A := by
        have hkeep := (hpre.2.2.2.2.2.2.1 i r0 _ hi hg1).1 hA0
        unfold histOf
        rw [hkeep]
        exact hA0
      exact reconcileRow_pre_transition A B fA tbl0 hABne hAne hBne hAllRaw _ i _
        (by rw [List.get?_eq_getElem?]; exact hg1) hA1 hpre
    · exact reconcileRow_post_preserved A B fA tbl0 hBs _ i hpost
  have hfinal := postInv_foldl A B fA tbl0 hBs
    ((List.range (tbl0.length - (i+1))).map ((i+1) + ·)) _ hpost
  rw [← hpass] at hfinal
  exact ⟨hfinal.1, hfinal.2.1, hfinal.2.2.2.2.1⟩

/-- Concrete run of the rename theorem: two rows store history "A" and
desire "B"; folder "A" holds one file and folder "B" is absent.  The pass
must leave no folder "A", put the file under "B", and rewrite both history
cells to "B". -/
theorem C9_rename_batch_consistency_witness :
    treeHas (reconcilePass
      [⟨"X1", "L1", "S1", "B", "A", "ok"⟩, ⟨"X2", "L1", "S1", "B", "A", "ok"⟩]
      [⟨"A", [⟨"f.pdf", "cc", ["p1"], true⟩], none, none⟩]).tree "A" = false ∧
    treeFolder (reconcilePass
      [⟨"X1", "L1", "S1", "B", "A", "ok"⟩, ⟨"X2", "L1", "S1", "B", "A", "ok"⟩]
      [⟨"A", [⟨"f.pdf", "cc", ["p1"], true⟩], none, none⟩]).tree "B" =
      some ⟨"B", [⟨"f.pdf", "cc", ["p1"], true⟩], none, none⟩ ∧
    (∀ (j : Nat) (rj r1 : Row),
      ([⟨"X1", "L1", "S1", "B", "A", "ok"⟩, ⟨"X2", "L1", "S1", "B", "A", "ok"⟩] :
        List Row)[j]? = some rj →
      (reconcilePass
        [⟨"X1", "L1", "S1", "B", "A", "ok"⟩, ⟨"X2", "L1", "S1", "B", "A", "ok"⟩]
        [⟨"A", [⟨"f.pdf", "cc", ["p1"], true⟩], none, none⟩]).table[j]? = some r1 →
      histOf rj = "A" → r1.history = "B") :=
  C9_rename_batch_consistency "A" "B"
    ⟨"A", [⟨"f.pdf", "cc", ["p1"], true⟩], none, none⟩
    [⟨"X1", "L1", "S1", "B", "A", "ok"⟩, ⟨"X2", "L1", "S1", "B", "A", "ok"⟩]
    [⟨"A", [⟨"f.pdf", "cc", ["p1"], true⟩], none, none⟩]
    0 ⟨"X1", "L1", "S1", "B", "A", "ok"⟩
    (by decide) (by decide) (by decide) (by decide) (by decide)
    rfl rfl (by decide) rfl rfl (by decide)

end PyOrch



